import Mathlib

/-!
Shallow embedding of the Minesweeper rules engine in `components.py`
(classes `CellState`, `Cell`, `Board`).

Python's mutable objects are modelled by explicit state passing: every
method of `Board` becomes a function `Board → ... → Board`.  Python `int`
is modelled by `Int`.  The one fallible operation is `place_mines`, whose
`pool[i]` indexing raises `IndexError` when `num_mines` exceeds the pool
size; it is therefore `Option`-valued, and `reveal` propagates the failure
(`none` = an uncaught Python exception).  `random.shuffle(pool)` is
modelled by an explicit parameter `sh : List (Int × Int) → List (Int × Int)`;
theorems that depend on its behaviour assume `∀ l, (sh l).Perm l`, which is
exactly what an in-place shuffle guarantees.

The `while to_visit:` flood-fill loop is written with an explicit fuel
argument; `reveal` passes fuel `9 * cells.length + 1`, which bounds the
number of loop iterations (each iteration either pops without revealing,
shrinking the work list, or reveals one previously-unrevealed cell and
pushes at most 8 neighbors), so the fuel never runs out on the boards the
source constructs.
-/

/-- Mutable state of a single cell (`CellState` in `components.py`). -/
structure CellState where
  is_mine : Bool
  is_revealed : Bool
  is_flagged : Bool
  adjacent : Int
deriving DecidableEq, Repr

/-- Default construction `CellState()`: not a mine, hidden, unflagged, adjacent 0. -/
def CellState.init : CellState :=
  { is_mine := false, is_revealed := false, is_flagged := false, adjacent := 0 }

/-- Logical cell positioned by column and row (`Cell` in `components.py`). -/
structure Cell where
  col : Int
  row : Int
  state : CellState
deriving DecidableEq, Repr

/-- Construction `Cell(col, row)`. -/
def Cell.init (col row : Int) : Cell :=
  { col := col, row := row, state := CellState.init }

/-- The Minesweeper board (`Board` in `components.py`). -/
structure Board where
  cols : Int
  rows : Int
  num_mines : Int
  cells : List Cell
  mines_placed : Bool
  revealed_count : Int
  game_over : Bool
  win : Bool
deriving DecidableEq, Repr

/-- Constructor `Board.__init__(cols, rows, mines)`: the list comprehension
`[Cell(c, r) for r in range(rows) for c in range(cols)]` plus the flag and
counter initialisation.  Note: the source performs no validation of the
configuration whatsoever. -/
def Board.init (cols rows mines : Int) : Board :=
  { cols := cols
    rows := rows
    num_mines := mines
    cells := (List.range rows.toNat).flatMap
      (fun r => (List.range cols.toNat).map (fun c => Cell.init (Int.ofNat c) (Int.ofNat r)))
    mines_placed := false
    revealed_count := 0
    game_over := false
    win := false }

/-- Method `Board.index`: flat list index `row * cols + col`. -/
def Board.index (b : Board) (col row : Int) : Int :=
  row * b.cols + col

/-- Method `Board.is_inbounds`: `0 <= col < cols and 0 <= row < rows`. -/
def Board.is_inbounds (b : Board) (col row : Int) : Bool :=
  decide (0 ≤ col ∧ col < b.cols ∧ 0 ≤ row ∧ row < b.rows)

/-- The eight Moore-neighborhood offsets, in the source's order. -/
def deltas : List (Int × Int) :=
  [(-1, -1), (0, -1), (1, -1), (-1, 0), (1, 0), (-1, 1), (0, 1), (1, 1)]

/-- Method `Board.neighbors`: the in-bounds subset of the 8 neighbor offsets,
in offset order (the source's append loop). -/
def Board.neighbors (b : Board) (col row : Int) : List (Int × Int) :=
  deltas.filterMap (fun d =>
    let nc := col + d.1
    let nr := row + d.2
    if b.is_inbounds nc nr then some (nc, nr) else none)

/-- Read `self.cells[self.index(col,row)].state`.  All call sites in the
source use in-range indices (bounds are checked, or the coordinates come
from `neighbors`), so the default returned on an out-of-range index is
never consulted on boards the source constructs. -/
def Board.getState (b : Board) (col row : Int) : CellState :=
  match b.cells[(b.index col row).toNat]? with
  | some c => c.state
  | none => CellState.init

/-- Write to `self.cells[self.index(col,row)].state` (Python mutates the
cell object in place; here the list entry is replaced).  Out-of-range
indices leave the list unchanged and are never used by the source. -/
def Board.setState (b : Board) (col row : Int) (s : CellState) : Board :=
  match b.cells[(b.index col row).toNat]? with
  | some c => { b with cells := b.cells.set (b.index col row).toNat { c with state := s } }
  | none => b

/-- All board positions `[(c, r) for r in range(rows) for c in range(cols)]`
(first lines of `Board.place_mines`). -/
def Board.all_positions (b : Board) : List (Int × Int) :=
  (List.range b.rows.toNat).flatMap
    (fun r => (List.range b.cols.toNat).map (fun c => (Int.ofNat c, Int.ofNat r)))

/-- The forbidden safe zone `{(safe_col, safe_row)} | set(neighbors(...))`.
The clicked cell is not its own neighbor and `neighbors` returns distinct
positions, so this list has no duplicates and faithfully represents the
Python set. -/
def Board.forbidden (b : Board) (safe_col safe_row : Int) : List (Int × Int) :=
  (safe_col, safe_row) :: b.neighbors safe_col safe_row

/-- The candidate pool: all positions not in the forbidden set. -/
def Board.pool (b : Board) (safe_col safe_row : Int) : List (Int × Int) :=
  (b.all_positions).filter (fun p => decide (p ∉ b.forbidden safe_col safe_row))

/-- The marking loop `for i in range(self.num_mines): c, r = pool[i]; ...`:
marks the first `n` entries of `ps` as mines; `none` models the
`IndexError` raised when the pool is exhausted before `n` mines are set. -/
def Board.markMines (b : Board) (ps : List (Int × Int)) (n : Nat) : Option Board :=
  match n, ps with
  | 0, _ => some b
  | _ + 1, [] => none
  | n + 1, p :: rest =>
    Board.markMines
      (b.setState p.1 p.2 { b.getState p.1 p.2 with is_mine := true }) rest n

/-- Count of mine-holding neighbors of `(c, r)` (inner counting loop of the
adjacency pass of `place_mines`). -/
def Board.mineNeighborCount (b : Board) (c r : Int) : Int :=
  ((b.neighbors c r).filter (fun p => (b.getState p.1 p.2).is_mine)).length

/-- The adjacency pass of `place_mines`: for every non-mine cell, in row-major
order, store the count of mine neighbors into `adjacent`. -/
def Board.computeAdjacency (b : Board) : Board :=
  (List.range b.rows.toNat).foldl
    (fun br r =>
      (List.range b.cols.toNat).foldl
        (fun bc c =>
          if (bc.getState (Int.ofNat c) (Int.ofNat r)).is_mine then bc
          else bc.setState (Int.ofNat c) (Int.ofNat r)
            { bc.getState (Int.ofNat c) (Int.ofNat r) with
                adjacent := bc.mineNeighborCount (Int.ofNat c) (Int.ofNat r) })
        br)
    b

/-- Method `Board.place_mines(safe_col, safe_row)`: build the pool, shuffle it
(`sh` stands for `random.shuffle`), mark the first `num_mines` entries as
mines (`none` = `IndexError`), recompute adjacency, set `_mines_placed`.
Python's `range(self.num_mines)` is empty for a non-positive count, hence
`num_mines.toNat`. -/
def Board.place_mines (b : Board) (safe_col safe_row : Int)
    (sh : List (Int × Int) → List (Int × Int)) : Option Board :=
  match b.markMines (sh (b.pool safe_col safe_row)) b.num_mines.toNat with
  | none => none
  | some b1 => some { b1.computeAdjacency with mines_placed := true }

/-- The body of a revealing flood-fill iteration: mark the current cell
revealed and increment `revealed_count` (lines `curr.is_revealed = True`,
`self.revealed_count += 1` of `Board.reveal`). -/
def Board.revealCell (b : Board) (c r : Int) : Board :=
  { b.setState c r { b.getState c r with is_revealed := true } with
      revealed_count := b.revealed_count + 1 }

/-- The neighbor candidates pushed by a zero-adjacency cell: in-bounds
neighbors that are not revealed, not flagged and not mines, read on the
board after the current cell was revealed (the source reads them live). -/
def Board.floodPushes (b2 : Board) (c r : Int) : List (Int × Int) :=
  (b2.neighbors c r).filter (fun p =>
    !(b2.getState p.1 p.2).is_revealed && !(b2.getState p.1 p.2).is_flagged &&
      !(b2.getState p.1 p.2).is_mine)

/-- One `while to_visit:` loop of `Board.reveal`, with explicit fuel.
The work list is kept top-first (Python pushes with `append` and pops with
`pop()` from the end, hence the `.reverse` when pushing a batch of
neighbors).  The fuel passed by `reveal` always suffices: every iteration
either pops without revealing or reveals one previously-unrevealed cell
while pushing at most 8 neighbors. -/
def Board.floodFill (fuel : Nat) (b : Board) (to_visit : List (Int × Int)) : Board :=
  match fuel, to_visit with
  | _, [] => b
  | 0, _ => b
  | fuel + 1, (c, r) :: rest =>
    if (b.getState c r).is_revealed || (b.getState c r).is_flagged then
      Board.floodFill fuel b rest
    else
      Board.floodFill fuel (b.revealCell c r)
        ((if (b.getState c r).adjacent = 0 then (b.revealCell c r).floodPushes c r
          else []).reverse ++ rest)

/-- Method `Board._reveal_all_mines`: reveal every mine (called on game over).
Flags are NOT cleared. -/
def Board.reveal_all_mines (b : Board) : Board :=
  { b with cells := b.cells.map (fun c =>
      if c.state.is_mine then { c with state := { c.state with is_revealed := true } }
      else c) }

/-- Method `Board._check_win`: when `revealed_count == cols*rows - num_mines` and
the game is not over, set `win` and force-reveal every unrevealed non-mine
cell. -/
def Board.check_win (b : Board) : Board :=
  if b.revealed_count = b.cols * b.rows - b.num_mines ∧ b.game_over = false then
    let b1 := { b with win := true }
    { b1 with cells := b1.cells.map (fun c =>
        if !c.state.is_revealed && !c.state.is_mine then
          { c with state := { c.state with is_revealed := true } }
        else c) }
  else b

/-- The body of `Board.reveal` after the lazy mine placement: the flag
guard, the mine/loss path (mark revealed, set `game_over`, force-reveal all
mines) and the non-mine flood-fill path ending in `_check_win`. -/
def Board.revealPlaced (b1 : Board) (col row : Int) : Board :=
  if (b1.getState col row).is_flagged then b1
  else if (b1.getState col row).is_mine then
    ({ b1.setState col row { b1.getState col row with is_revealed := true } with
        game_over := true } : Board).reveal_all_mines
  else
    Board.check_win (Board.floodFill (9 * b1.cells.length + 1) b1 [(col, row)])

/-- Method `Board.reveal(col, row)`.  Python's local `cell` is an alias of the
`CellState` object, so the `is_flagged` / `is_mine` tests after the lazy
`place_mines` call observe the post-placement values; the embedding
re-reads the state from the post-placement board (`revealPlaced`)
accordingly.  `none` propagates the `IndexError` from `place_mines`. -/
def Board.reveal (b : Board) (col row : Int)
    (sh : List (Int × Int) → List (Int × Int)) : Option Board :=
  if !(b.is_inbounds col row) || b.game_over then some b
  else if (b.getState col row).is_revealed then some b
  else
    match (if b.mines_placed then some b else b.place_mines col row sh) with
    | none => none
    | some b1 => some (b1.revealPlaced col row)

/-- Method `Board.toggle_flag(col, row)`: flip the flag of an in-bounds,
unrevealed cell; otherwise do nothing.  Note: no `game_over`/`win` guard. -/
def Board.toggle_flag (b : Board) (col row : Int) : Board :=
  if !(b.is_inbounds col row) then b
  else
    let cell := b.getState col row
    if cell.is_revealed then b
    else b.setState col row { cell with is_flagged := !cell.is_flagged }

/-- Method `Board.flagged_count`: the source's body is a bare `pass` under a TODO
comment, so the call returns Python `None` for every board. -/
def Board.flagged_count (_b : Board) : Option Int :=
  none

/-- Modelled from the spec: the flagged-cell count query that
`Board.flagged_count` is documented (by its own TODO comment and by §4.6 of
the spec) to compute — the number of cells with `is_flagged == true`. -/
def Board.flaggedCountSpec (b : Board) : Nat :=
  (b.cells.filter (fun c => c.state.is_flagged)).length

/-- Number of cells currently revealed. -/
def Board.countRevealed (b : Board) : Nat :=
  (b.cells.filter (fun c => c.state.is_revealed)).length

/-- Number of revealed non-mine cells. -/
def Board.countRevealedSafe (b : Board) : Nat :=
  (b.cells.filter (fun c => c.state.is_revealed && !c.state.is_mine)).length

/-- Number of mine cells. -/
def Board.countMines (b : Board) : Nat :=
  (b.cells.filter (fun c => c.state.is_mine)).length

/-- Board states reachable by the public API: construction, `reveal` calls
that do not raise (with any shuffle that permutes its input, as
`random.shuffle` does), and `toggle_flag` calls. -/
inductive Reachable : Board → Prop where
  | init : ∀ cols rows mines, Reachable (Board.init cols rows mines)
  | reveal : ∀ b col row sh b', Reachable b → (∀ l, (sh l).Perm l) →
      b.reveal col row sh = some b' → Reachable b'
  | toggle : ∀ b col row, Reachable b → Reachable (b.toggle_flag col row)

/-! ## List-level helper lemmas -/

/-- Replacing one element by one with the same predicate value keeps the
filter length. -/
theorem length_filter_set_same {α : Type} (p : α → Bool) (l : List α) (i : Nat)
    (a x : α) (hget : l[i]? = some a) (hpx : p x = p a) :
    ((l.set i x).filter p).length = (l.filter p).length := by
  induction l generalizing i with
  | nil => simp at hget
  | cons hd tl ih =>
    cases i with
    | zero =>
      simp only [List.getElem?_cons_zero] at hget
      injection hget with hget
      subst hget
      simp only [List.set, List.filter]
      cases h : p hd <;> simp [h, hpx.trans h]
    | succ j =>
      simp only [List.getElem?_cons_succ] at hget
      simp only [List.set, List.filter]
      cases h : p hd <;> simp [h, ih j hget]

/-- Replacing an element that fails the predicate by one that satisfies it
increments the filter length. -/
theorem length_filter_set_incr {α : Type} (p : α → Bool) (l : List α) (i : Nat)
    (a x : α) (hget : l[i]? = some a) (hpa : p a = false) (hpx : p x = true) :
    ((l.set i x).filter p).length = (l.filter p).length + 1 := by
  induction l generalizing i with
  | nil => simp at hget
  | cons hd tl ih =>
    cases i with
    | zero =>
      simp only [List.getElem?_cons_zero] at hget
      injection hget with hget
      subst hget
      simp [List.set, List.filter, hpa, hpx]
    | succ j =>
      simp only [List.getElem?_cons_succ] at hget
      simp only [List.set, List.filter]
      cases h : p hd <;> simp [h, ih j hget]

/-- Two lists whose images under a projection agree index by index have the
same length. -/
theorem length_eq_of_proj {α : Type} {β : Type} (f : α → β) :
    ∀ (l l' : List α), (∀ i : Nat, (l'[i]?).map f = (l[i]?).map f) →
    l'.length = l.length := by
  intro l
  induction l with
  | nil =>
    intro l' h
    cases l' with
    | nil => rfl
    | cons hd tl => simpa using h 0
  | cons hd tl ih =>
    intro l' h
    cases l' with
    | nil => simpa using h 0
    | cons hd' tl' =>
      simp only [List.length_cons]
      rw [ih tl' (fun i => by simpa using h (i + 1))]

/-- Two lists whose images under a projection agree index by index have the
same filter length for any predicate factoring through the projection. -/
theorem length_filter_eq_of_proj {α : Type} {β : Type} (f : α → β) (p : β → Bool) :
    ∀ (l l' : List α), (∀ i : Nat, (l'[i]?).map f = (l[i]?).map f) →
    ((l'.filter fun x => p (f x)).length = (l.filter fun x => p (f x)).length) := by
  intro l
  induction l with
  | nil =>
    intro l' h
    cases l' with
    | nil => rfl
    | cons hd tl => simpa using h 0
  | cons hd tl ih =>
    intro l' h
    cases l' with
    | nil => simpa using h 0
    | cons hd' tl' =>
      have h0 : f hd' = f hd := by simpa using h 0
      simp only [List.filter]
      rw [h0]
      cases hp : p (f hd) <;> simp [ih tl' (fun i => by simpa using h (i + 1))]

/-- A pointwise property of the projection transfers along index-by-index
projection agreement. -/
theorem forall_mem_of_proj {α : Type} {β : Type} (f : α → β) (P : β → Prop) :
    ∀ (l l' : List α), (∀ i : Nat, (l'[i]?).map f = (l[i]?).map f) →
    (∀ x ∈ l, P (f x)) → ∀ x ∈ l', P (f x) := by
  intro l
  induction l with
  | nil =>
    intro l' h _
    cases l' with
    | nil => intro x hx; simp at hx
    | cons hd tl => simpa using h 0
  | cons hd tl ih =>
    intro l' h hall
    cases l' with
    | nil => simpa using h 0
    | cons hd' tl' =>
      intro x hx
      have h0 : f hd' = f hd := by simpa using h 0
      rcases List.mem_cons.mp hx with rfl | hx
      · rw [h0]; exact hall hd (List.mem_cons_self _ _)
      · exact ih tl' (fun i => by simpa using h (i + 1)) (fun y hy => hall y (List.mem_cons_of_mem _ hy)) x hx

/-- Index-by-index projection agreement, read on the zipped lists. -/
theorem zip_rel_of_proj {α : Type} {β : Type} (g h : α → β) :
    ∀ (l l' : List α), (∀ i : Nat, (l'[i]?).map g = (l[i]?).map h) →
    ∀ q ∈ l.zip l', g q.2 = h q.1 := by
  intro l
  induction l with
  | nil => intro l' _ q hq; simp at hq
  | cons hd tl ih =>
    intro l' hproj q hq
    cases l' with
    | nil => simp at hq
    | cons hd' tl' =>
      rcases List.mem_cons.mp hq with rfl | hq
      · simpa using hproj 0
      · exact ih tl' (fun i => by simpa using hproj (i + 1)) q hq

/-- Splitting a list length by a predicate. -/
theorem length_filter_add_length_filter_not {α : Type} (p : α → Bool) (l : List α) :
    (l.filter p).length + (l.filter fun x => !(p x)).length = l.length := by
  induction l with
  | nil => rfl
  | cons hd tl ih =>
    simp only [List.filter]
    cases h : p hd <;> simp [h, List.length_cons, ← ih] <;> omega

/-! ## Cell projections and board-level basic lemmas -/

/-- Projection to (mine, flagged): the part of a cell state untouched by
the flood fill and the force-reveal sweeps. -/
def stateMF (s : CellState) : Bool × Bool := (s.is_mine, s.is_flagged)

/-- Projection to (mine, revealed): the part of a cell state untouched by
`toggle_flag`. -/
def stateMR (s : CellState) : Bool × Bool := (s.is_mine, s.is_revealed)

/-- Projection to (revealed, flagged): the part of a cell state untouched
by the mine-marking loop. -/
def stateRF (s : CellState) : Bool × Bool := (s.is_revealed, s.is_flagged)

/-- Projection to (mine, revealed, flagged): the part of a cell state
untouched by the adjacency pass. -/
def stateMRF (s : CellState) : Bool × Bool × Bool :=
  (s.is_mine, s.is_revealed, s.is_flagged)

/-- Index-by-index agreement of the cells of two boards under a state
projection `f`. -/
def Board.ProjEq {β : Type} (f : CellState → β) (b b' : Board) : Prop :=
  ∀ i : Nat, (b'.cells[i]?).map (fun c => f c.state) =
    (b.cells[i]?).map (fun c => f c.state)

theorem Board.projEq_refl {β : Type} (f : CellState → β) (b : Board) : Board.ProjEq f b b :=
  fun _ => rfl

theorem Board.projEq_trans {β : Type} {f : CellState → β} {a b c : Board}
    (h1 : Board.ProjEq f a b) (h2 : Board.ProjEq f b c) : Board.ProjEq f a c :=
  fun i => (h2 i).trans (h1 i)

theorem Board.setState_cols (b : Board) (c r : Int) (s : CellState) :
    (b.setState c r s).cols = b.cols := by
  unfold Board.setState
  cases h : b.cells[(b.index c r).toNat]? <;> simp

theorem Board.setState_rows (b : Board) (c r : Int) (s : CellState) :
    (b.setState c r s).rows = b.rows := by
  unfold Board.setState
  cases h : b.cells[(b.index c r).toNat]? <;> simp

theorem Board.setState_num_mines (b : Board) (c r : Int) (s : CellState) :
    (b.setState c r s).num_mines = b.num_mines := by
  unfold Board.setState
  cases h : b.cells[(b.index c r).toNat]? <;> simp

theorem Board.setState_mines_placed (b : Board) (c r : Int) (s : CellState) :
    (b.setState c r s).mines_placed = b.mines_placed := by
  unfold Board.setState
  cases h : b.cells[(b.index c r).toNat]? <;> simp

theorem Board.setState_revealed_count (b : Board) (c r : Int) (s : CellState) :
    (b.setState c r s).revealed_count = b.revealed_count := by
  unfold Board.setState
  cases h : b.cells[(b.index c r).toNat]? <;> simp

theorem Board.setState_game_over (b : Board) (c r : Int) (s : CellState) :
    (b.setState c r s).game_over = b.game_over := by
  unfold Board.setState
  cases h : b.cells[(b.index c r).toNat]? <;> simp

theorem Board.setState_win (b : Board) (c r : Int) (s : CellState) :
    (b.setState c r s).win = b.win := by
  unfold Board.setState
  cases h : b.cells[(b.index c r).toNat]? <;> simp

theorem Board.setState_length (b : Board) (c r : Int) (s : CellState) :
    (b.setState c r s).cells.length = b.cells.length := by
  unfold Board.setState
  cases h : b.cells[(b.index c r).toNat]? <;> simp

theorem Board.setState_index (b : Board) (c r : Int) (s : CellState) (c' r' : Int) :
    (b.setState c r s).index c' r' = b.index c' r' := by
  unfold Board.index
  rw [Board.setState_cols]

theorem Board.setState_get?_ne (b : Board) (c r : Int) (s : CellState) (j : Nat)
    (hj : j ≠ (b.index c r).toNat) :
    (b.setState c r s).cells[j]? = b.cells[j]? := by
  unfold Board.setState
  cases h : b.cells[(b.index c r).toNat]? with
  | none => rfl
  | some cell => simpa using List.getElem?_set_ne (Ne.symm hj)

theorem Board.setState_get?_self (b : Board) (c r : Int) (s : CellState) (cell : Cell)
    (h : b.cells[(b.index c r).toNat]? = some cell) :
    (b.setState c r s).cells[(b.index c r).toNat]? = some { cell with state := s } := by
  unfold Board.setState
  rw [h]
  have hlt : (b.index c r).toNat < b.cells.length := by
    by_contra hge
    rw [List.getElem?_eq_none (Nat.le_of_not_lt hge)] at h
    exact Option.noConfusion h
  simpa using List.getElem?_set_eq_of_lt _ hlt

theorem Board.setState_get?_none (b : Board) (c r : Int) (s : CellState)
    (h : b.cells[(b.index c r).toNat]? = none) :
    b.setState c r s = b := by
  unfold Board.setState
  rw [h]

/-- Reading the state just written (the write landed on a real list entry). -/
theorem Board.getState_setState_self (b : Board) (c r : Int) (s : CellState) (cell : Cell)
    (h : b.cells[(b.index c r).toNat]? = some cell) :
    (b.setState c r s).getState c r = s := by
  unfold Board.getState
  rw [Board.setState_index, Board.setState_get?_self b c r s cell h]

/-- Reading any position whose flat index differs from the written one. -/
theorem Board.getState_setState_ne (b : Board) (c r : Int) (s : CellState) (c' r' : Int)
    (h : (b.index c' r').toNat ≠ (b.index c r).toNat) :
    (b.setState c r s).getState c' r' = b.getState c' r' := by
  unfold Board.getState
  rw [Board.setState_index, Board.setState_get?_ne b c r s _ h]

/-- Projection agreement under the full triple implies agreement under the
(mine, flagged) pair. -/
theorem Board.ProjEq.mrf_mf {b b' : Board} (h : Board.ProjEq stateMRF b b') :
    Board.ProjEq stateMF b b' := by
  intro i
  have hi := h i
  cases h1 : b'.cells[i]? <;> cases h2 : b.cells[i]? <;> rw [h1, h2] at hi <;>
    simp_all [stateMRF, stateMF, Prod.ext_iff]

/-- Projection agreement under the full triple implies agreement under the
(mine, revealed) pair. -/
theorem Board.ProjEq.mrf_mr {b b' : Board} (h : Board.ProjEq stateMRF b b') :
    Board.ProjEq stateMR b b' := by
  intro i
  have hi := h i
  cases h1 : b'.cells[i]? <;> cases h2 : b.cells[i]? <;> rw [h1, h2] at hi <;>
    simp_all [stateMRF, stateMR, Prod.ext_iff]

/-- Projection agreement under the full triple implies agreement under the
(revealed, flagged) pair. -/
theorem Board.ProjEq.mrf_rf {b b' : Board} (h : Board.ProjEq stateMRF b b') :
    Board.ProjEq stateRF b b' := by
  intro i
  have hi := h i
  cases h1 : b'.cells[i]? <;> cases h2 : b.cells[i]? <;> rw [h1, h2] at hi <;>
    simp_all [stateMRF, stateRF, Prod.ext_iff]

/-- Boards with equal `cols` and projection-equal cells have
projection-equal `getState` reads everywhere. -/
theorem Board.ProjEq.getState {β : Type} {f : CellState → β} {b b' : Board}
    (h : Board.ProjEq f b b') (hcols : b'.cols = b.cols) (c r : Int) :
    f (b'.getState c r) = f (b.getState c r) := by
  unfold Board.getState
  have hidx : b'.index c r = b.index c r := by unfold Board.index; rw [hcols]
  rw [hidx]
  have hi := h (b.index c r).toNat
  cases h1 : b'.cells[(b.index c r).toNat]? <;>
    cases h2 : b.cells[(b.index c r).toNat]? <;> rw [h1, h2] at hi <;> simp_all

/-- Writing a state with the same `f`-projection as the one already there
gives an `f`-projection-equal board. -/
theorem Board.setState_projEq {β : Type} (f : CellState → β) (b : Board)
    (c r : Int) (s : CellState) (hf : f s = f (b.getState c r)) :
    Board.ProjEq f b (b.setState c r s) := by
  intro i
  by_cases hi : i = (b.index c r).toNat
  · subst hi
    cases h : b.cells[(b.index c r).toNat]? with
    | none => rw [Board.setState_get?_none b c r s h, h]
    | some cell =>
      rw [Board.setState_get?_self b c r s cell h]
      have hcell : b.getState c r = cell.state := by unfold Board.getState; rw [h]
      simp [hf, hcell, h]
  · rw [Board.setState_get?_ne b c r s i hi]

/-! ## Counting transfer lemmas -/

theorem Board.countMines_eq_of_projMF {b b' : Board} (h : Board.ProjEq stateMF b b') :
    b'.countMines = b.countMines := by
  unfold Board.countMines
  exact length_filter_eq_of_proj (fun c : Cell => stateMF c.state) (fun q => q.1) b.cells b'.cells h

theorem Board.countMines_eq_of_projMR {b b' : Board} (h : Board.ProjEq stateMR b b') :
    b'.countMines = b.countMines := by
  unfold Board.countMines
  exact length_filter_eq_of_proj (fun c : Cell => stateMR c.state) (fun q => q.1) b.cells b'.cells h

theorem Board.countRevealedSafe_eq_of_projMR {b b' : Board} (h : Board.ProjEq stateMR b b') :
    b'.countRevealedSafe = b.countRevealedSafe := by
  unfold Board.countRevealedSafe
  exact length_filter_eq_of_proj (fun c : Cell => stateMR c.state) (fun q => q.2 && !q.1)
    b.cells b'.cells h

theorem Board.length_eq_of_projMR {b b' : Board} (h : Board.ProjEq stateMR b b') :
    b'.cells.length = b.cells.length :=
  length_eq_of_proj (fun c : Cell => stateMR c.state) b.cells b'.cells h

/-- Every cell of `setState` is an old cell or carries the written state. -/
theorem Board.setState_mem (b : Board) (c r : Int) (s : CellState) :
    ∀ x ∈ (b.setState c r s).cells, x ∈ b.cells ∨ x.state = s := by
  unfold Board.setState
  cases h : b.cells[(b.index c r).toNat]? with
  | none => intro x hx; exact Or.inl hx
  | some cell =>
    intro x hx
    rcases List.mem_or_eq_of_mem_set hx with hx | rfl
    · exact Or.inl hx
    · exact Or.inr rfl

/-! ## Constructor lemmas -/

theorem Board.init_cells_state (cols rows mines : Int) :
    ∀ c ∈ (Board.init cols rows mines).cells, c.state = CellState.init := by
  intro c hc
  unfold Board.init at hc
  simp only [List.mem_flatMap, List.mem_map, List.mem_range] at hc
  obtain ⟨r, -, c', -, rfl⟩ := hc
  rfl

/-- Sum of a constant over a range. -/
theorem sum_const_range (m k : Nat) : ((List.range m).map (fun _ => k)).sum = m * k := by
  induction m with
  | zero => simp
  | succ n ih => rw [List.range_succ]; simp [ih, Nat.succ_mul]

theorem Board.init_length (cols rows mines : Int) :
    (Board.init cols rows mines).cells.length = rows.toNat * cols.toNat := by
  unfold Board.init
  rw [List.length_flatMap]
  have : (List.length ∘ fun r : Nat => (List.range cols.toNat).map
      (fun c => Cell.init (Int.ofNat c) (Int.ofNat r))) = fun _ : Nat => cols.toNat := by
    funext r
    rw [Function.comp_apply, List.length_map, List.length_range]
  rw [this]
  exact sum_const_range rows.toNat cols.toNat

/-! ## Position lemmas: all_positions, neighbors, forbidden, pool -/

theorem index_lt_of_bounds (K R c r : Nat) (hc : c < K) (hr : r < R) :
    r * K + c < R * K := by
  calc r * K + c < r * K + K := Nat.add_lt_add_left hc _
  _ = (r + 1) * K := (Nat.succ_mul r K).symm
  _ ≤ R * K := Nat.mul_le_mul_right K hr

theorem Board.mem_all_positions_iff (b : Board) (p : Int × Int) :
    p ∈ b.all_positions ↔ b.is_inbounds p.1 p.2 = true := by
  obtain ⟨x, y⟩ := p
  unfold Board.all_positions Board.is_inbounds
  simp only [List.mem_flatMap, List.mem_map, List.mem_range, decide_eq_true_eq,
    Int.ofNat_eq_natCast, Prod.mk.injEq]
  constructor
  · rintro ⟨r, hr, c, hc, rfl, rfl⟩
    refine ⟨by omega, by omega, by omega, by omega⟩
  · rintro ⟨h1, h2, h3, h4⟩
    exact ⟨y.toNat, by omega, x.toNat, by omega, by omega, by omega⟩

theorem Board.all_positions_nodup (b : Board) : b.all_positions.Nodup := by
  unfold Board.all_positions
  suffices h : ∀ R : Nat, ((List.range R).flatMap
      (fun r => (List.range b.cols.toNat).map (fun c => (Int.ofNat c, Int.ofNat r)))).Nodup by
    exact h b.rows.toNat
  intro R
  induction R with
  | zero => simp
  | succ n ih =>
    rw [List.range_succ, List.flatMap_append]
    refine List.Nodup.append ih ?_ ?_
    · simp only [List.flatMap_cons, List.flatMap_nil, List.append_nil]
      refine List.Nodup.map_on ?_ (List.nodup_range _)
      intro x _ y _ hxy
      have h1 := congrArg Prod.fst hxy
      simp only [Int.ofNat_eq_natCast] at h1
      exact_mod_cast h1
    · intro p hp hq
      simp only [List.mem_flatMap, List.mem_map, List.mem_range] at hp
      simp only [List.flatMap_cons, List.flatMap_nil, List.append_nil, List.mem_map,
        List.mem_range] at hq
      obtain ⟨r, hr, c, -, rfl⟩ := hp
      obtain ⟨c', -, heq⟩ := hq
      have h2 := congrArg Prod.snd heq
      simp only [Int.ofNat_eq_natCast] at h2
      have h3 : (n : Int) = (r : Int) := h2
      have h4 : n = r := by exact_mod_cast h3
      omega

/-- The flat index of an in-bounds position is within the board's cell list
(when the list has its constructed length). -/
theorem Board.index_toNat_lt (b : Board) (c r : Int)
    (h : b.is_inbounds c r = true) (hlen : b.cells.length = b.rows.toNat * b.cols.toNat) :
    (b.index c r).toNat < b.cells.length := by
  unfold Board.is_inbounds at h
  rw [decide_eq_true_eq] at h
  obtain ⟨h1, h2, h3, h4⟩ := h
  unfold Board.index
  rw [hlen]
  have ec : c = (c.toNat : Int) := by omega
  have er : r = (r.toNat : Int) := by omega
  have ek : b.cols = (b.cols.toNat : Int) := by omega
  rw [ec, er, ek]
  have hcast : ((r.toNat : Int) * (b.cols.toNat : Int) + (c.toNat : Int)) =
      ((r.toNat * b.cols.toNat + c.toNat : Nat) : Int) := by push_cast; ring
  rw [hcast, Int.toNat_natCast]
  exact index_lt_of_bounds b.cols.toNat b.rows.toNat c.toNat r.toNat (by omega) (by omega)

/-- Distinct in-bounds positions have distinct flat indices. -/
theorem Board.index_inj (b : Board) (p q : Int × Int)
    (hp : b.is_inbounds p.1 p.2 = true) (hq : b.is_inbounds q.1 q.2 = true)
    (h : (b.index p.1 p.2).toNat = (b.index q.1 q.2).toNat) : p = q := by
  obtain ⟨x, y⟩ := p
  obtain ⟨u, v⟩ := q
  unfold Board.is_inbounds at hp hq
  rw [decide_eq_true_eq] at hp hq
  obtain ⟨a1, a2, a3, a4⟩ := hp
  obtain ⟨b1, b2, b3, b4⟩ := hq
  unfold Board.index at h
  simp only [] at h a1 a2 a3 a4 b1 b2 b3 b4
  have hcols : 0 < b.cols := lt_of_le_of_lt a1 a2
  have e1 : 0 ≤ y * b.cols + x := by positivity
  have e2 : 0 ≤ v * b.cols + u := by positivity
  have hpq : y * b.cols + x = v * b.cols + u := by
    have h' := congrArg (fun n : Nat => (n : Int)) h
    simpa [Int.toNat_of_nonneg e1, Int.toNat_of_nonneg e2] using h'
  have hr : y = v := by
    by_contra hne
    rcases lt_or_gt_of_ne hne with hlt | hgt
    · have h5 : y + 1 ≤ v := hlt
      have h6 : (y + 1) * b.cols ≤ v * b.cols :=
        mul_le_mul_of_nonneg_right h5 (le_of_lt hcols)
      have h7 : (y + 1) * b.cols = y * b.cols + b.cols := by ring
      linarith
    · have h5 : v + 1 ≤ y := hgt
      have h6 : (v + 1) * b.cols ≤ y * b.cols :=
        mul_le_mul_of_nonneg_right h5 (le_of_lt hcols)
      have h7 : (v + 1) * b.cols = v * b.cols + b.cols := by ring
      linarith
  have hc : x = u := by
    rw [hr] at hpq
    omega
  rw [hc, hr]

theorem Board.neighbors_inbounds (b : Board) (c r : Int) :
    ∀ p ∈ b.neighbors c r, b.is_inbounds p.1 p.2 = true := by
  intro p hp
  unfold Board.neighbors at hp
  simp only [List.mem_filterMap] at hp
  obtain ⟨d, -, hd⟩ := hp
  by_cases h : b.is_inbounds (c + d.1) (r + d.2) = true
  · simp only [h, if_true] at hd
    injection hd with hd
    subst hd
    exact h
  · simp only [eq_false_of_ne_true h] at hd
    simp at hd

theorem Board.neighbors_nodup (b : Board) (c r : Int) : (b.neighbors c r).Nodup := by
  unfold Board.neighbors
  refine List.Nodup.filterMap ?_ (by unfold deltas; decide)
  intro d d' p hd hd'
  by_cases h : b.is_inbounds (c + d.1) (r + d.2) = true
  · simp only [h, if_true, Option.mem_def, Option.some_inj] at hd
    by_cases h' : b.is_inbounds (c + d'.1) (r + d'.2) = true
    · simp only [h', if_true, Option.mem_def, Option.some_inj] at hd'
      rw [← hd'] at hd
      injection hd with hd1 hd2
      have e1 : d.1 = d'.1 := by omega
      have e2 : d.2 = d'.2 := by omega
      exact Prod.ext e1 e2
    · simp only [eq_false_of_ne_true h'] at hd'
      simp at hd'
  · simp only [eq_false_of_ne_true h] at hd
    simp at hd

/-- A cell is not its own neighbor. -/
theorem Board.self_not_mem_neighbors (b : Board) (c r : Int) :
    (c, r) ∉ b.neighbors c r := by
  intro hmem
  unfold Board.neighbors at hmem
  simp only [List.mem_filterMap] at hmem
  obtain ⟨d, hd, heq⟩ := hmem
  by_cases h : b.is_inbounds (c + d.1) (r + d.2) = true
  · simp only [h, if_true, Option.some_inj] at heq
    injection heq with h1 h2
    have e1 : d.1 = 0 := by omega
    have e2 : d.2 = 0 := by omega
    have : d = ((0 : Int), (0 : Int)) := Prod.ext e1 e2
    subst this
    revert hd
    unfold deltas
    decide
  · simp only [eq_false_of_ne_true h] at heq
    simp at heq

theorem Board.forbidden_nodup (b : Board) (c r : Int) : (b.forbidden c r).Nodup := by
  unfold Board.forbidden
  exact List.Nodup.cons (b.self_not_mem_neighbors c r) (b.neighbors_nodup c r)

theorem Board.pool_nodup (b : Board) (c r : Int) : (b.pool c r).Nodup :=
  (b.all_positions_nodup).filter _

theorem Board.pool_subset_all (b : Board) (c r : Int) :
    ∀ p ∈ b.pool c r, p ∈ b.all_positions := by
  intro p hp
  exact List.mem_of_mem_filter hp

theorem Board.pool_not_forbidden (b : Board) (c r : Int) :
    ∀ p ∈ b.pool c r, p ∉ b.forbidden c r := by
  intro p hp
  have := List.of_mem_filter hp
  simpa using this

/-- Size of the candidate pool: total cells minus the size of the
forbidden zone, provided the clicked cell is in bounds. -/
theorem Board.pool_length (b : Board) (c r : Int) (h : b.is_inbounds c r = true) :
    (b.pool c r).length + (b.forbidden c r).length = b.all_positions.length := by
  unfold Board.pool
  have hsplit := length_filter_add_length_filter_not
    (fun p => decide (p ∉ b.forbidden c r)) b.all_positions
  have hperm : (b.all_positions.filter
      (fun p => !(decide (p ∉ b.forbidden c r)))).Perm (b.forbidden c r) := by
    rw [List.perm_ext_iff_of_nodup ((b.all_positions_nodup).filter _) (b.forbidden_nodup c r)]
    intro p
    simp only [List.mem_filter, Bool.not_eq_true', decide_eq_false_iff_not, Decidable.not_not]
    constructor
    · rintro ⟨-, hp⟩
      exact hp
    · intro hp
      refine ⟨?_, hp⟩
      rw [b.mem_all_positions_iff]
      rcases List.mem_cons.mp hp with rfl | hp'
      · exact h
      · exact b.neighbors_inbounds c r _ hp'
  have hlen2 := hperm.length_eq
  omega

/-! ## Mine-marking loop lemmas -/

theorem Board.markMines_scalars : ∀ (n : Nat) (b : Board) (ps : List (Int × Int)) (b' : Board),
    Board.markMines b ps n = some b' →
    b'.cols = b.cols ∧ b'.rows = b.rows ∧ b'.num_mines = b.num_mines ∧
    b'.mines_placed = b.mines_placed ∧ b'.revealed_count = b.revealed_count ∧
    b'.game_over = b.game_over ∧ b'.win = b.win ∧ b'.cells.length = b.cells.length := by
  intro n
  induction n with
  | zero =>
    intro b ps b' h
    have hb : b' = b := by
      simp only [Board.markMines] at h
      exact (Option.some_inj.mp h).symm
    subst hb
    exact ⟨rfl, rfl, rfl, rfl, rfl, rfl, rfl, rfl⟩
  | succ n ih =>
    intro b ps b' h
    cases ps with
    | nil => exact Option.noConfusion h
    | cons p rest =>
      simp only [Board.markMines] at h
      obtain ⟨e1, e2, e3, e4, e5, e6, e7, e8⟩ := ih _ _ _ h
      exact ⟨e1.trans (Board.setState_cols _ _ _ _),
        e2.trans (Board.setState_rows _ _ _ _),
        e3.trans (Board.setState_num_mines _ _ _ _),
        e4.trans (Board.setState_mines_placed _ _ _ _),
        e5.trans (Board.setState_revealed_count _ _ _ _),
        e6.trans (Board.setState_game_over _ _ _ _),
        e7.trans (Board.setState_win _ _ _ _),
        e8.trans (Board.setState_length _ _ _ _)⟩

theorem Board.markMines_projRF : ∀ (n : Nat) (b : Board) (ps : List (Int × Int)) (b' : Board),
    Board.markMines b ps n = some b' → Board.ProjEq stateRF b b' := by
  intro n
  induction n with
  | zero =>
    intro b ps b' h
    simp only [Board.markMines] at h
    rw [← Option.some_inj.mp h]
    exact Board.projEq_refl _ _
  | succ n ih =>
    intro b ps b' h
    cases ps with
    | nil => exact Option.noConfusion h
    | cons p rest =>
      simp only [Board.markMines] at h
      refine Board.projEq_trans ?_ (ih _ _ _ h)
      exact Board.setState_projEq stateRF b p.1 p.2 _ rfl

theorem Board.markMines_get?_ne : ∀ (n : Nat) (b : Board) (ps : List (Int × Int)) (b' : Board),
    Board.markMines b ps n = some b' → ∀ j : Nat,
    (∀ p ∈ ps.take n, (b.index p.1 p.2).toNat ≠ j) →
    b'.cells[j]? = b.cells[j]? := by
  intro n
  induction n with
  | zero =>
    intro b ps b' h j _
    simp only [Board.markMines] at h
    rw [← Option.some_inj.mp h]
  | succ n ih =>
    intro b ps b' h j hne
    cases ps with
    | nil => exact Option.noConfusion h
    | cons p rest =>
      simp only [Board.markMines] at h
      have hp : (b.index p.1 p.2).toNat ≠ j :=
        hne p (by rw [List.take_succ_cons]; exact List.mem_cons_self _ _)
      have hidx : ∀ q : Int × Int,
          ((b.setState p.1 p.2 { b.getState p.1 p.2 with is_mine := true }).index q.1 q.2)
            = b.index q.1 q.2 := by
        intro q
        exact Board.setState_index b p.1 p.2 _ q.1 q.2
      have hrest : ∀ q ∈ rest.take n,
          (((b.setState p.1 p.2 { b.getState p.1 p.2 with is_mine := true }).index q.1 q.2).toNat ≠ j) := by
        intro q hq
        rw [hidx q]
        exact hne q (by rw [List.take_succ_cons]; exact List.mem_cons_of_mem _ hq)
      have := ih _ _ _ h j hrest
      rw [this]
      exact Board.setState_get?_ne b p.1 p.2 _ j (fun he => hp (he ▸ rfl))

/-- When the write lands on a real entry, `setState` is a `List.set`. -/
theorem Board.setState_cells_of_some (b : Board) (c r : Int) (s : CellState) (cell : Cell)
    (h : b.cells[(b.index c r).toNat]? = some cell) :
    (b.setState c r s).cells = b.cells.set (b.index c r).toNat { cell with state := s } := by
  unfold Board.setState
  rw [h]

theorem Board.getState_of_some (b : Board) (c r : Int) (cell : Cell)
    (h : b.cells[(b.index c r).toNat]? = some cell) :
    b.getState c r = cell.state := by
  unfold Board.getState
  rw [h]

theorem Board.markMines_isSome : ∀ (n : Nat) (b : Board) (ps : List (Int × Int)),
    n ≤ ps.length → ∃ b', Board.markMines b ps n = some b' := by
  intro n
  induction n with
  | zero => intro b ps _; cases ps <;> exact ⟨b, rfl⟩
  | succ n ih =>
    intro b ps hle
    cases ps with
    | nil => simp at hle
    | cons p rest =>
      have : n ≤ rest.length := by simpa using hle
      obtain ⟨b', hb'⟩ := ih
        (b.setState p.1 p.2 { b.getState p.1 p.2 with is_mine := true }) rest this
      exact ⟨b', hb'⟩

theorem Board.markMines_countMines : ∀ (n : Nat) (b : Board) (ps : List (Int × Int)) (b' : Board),
    Board.markMines b ps n = some b' →
    (∀ p ∈ ps.take n, (b.index p.1 p.2).toNat < b.cells.length ∧
      (b.getState p.1 p.2).is_mine = false) →
    ((ps.take n).map (fun p => (b.index p.1 p.2).toNat)).Nodup →
    b'.countMines = b.countMines + n := by
  intro n
  induction n with
  | zero =>
    intro b ps b' h _ _
    simp only [Board.markMines] at h
    rw [← Option.some_inj.mp h, Nat.add_zero]
  | succ n ih =>
    intro b ps b' h hpos hnd
    cases ps with
    | nil => exact Option.noConfusion h
    | cons p rest =>
      simp only [Board.markMines] at h
      rw [List.take_succ_cons] at hpos hnd
      have hp := hpos p (List.mem_cons_self _ _)
      obtain ⟨hplt, hpmf⟩ := hp
      obtain ⟨cellO, hsome⟩ : ∃ cl, b.cells[(b.index p.1 p.2).toNat]? = some cl :=
        ⟨_, List.getElem?_eq_getElem hplt⟩
      set bm := b.setState p.1 p.2 { b.getState p.1 p.2 with is_mine := true } with hbm
      have hstate : b.getState p.1 p.2 = cellO.state := Board.getState_of_some b p.1 p.2 cellO hsome
      have hmf : cellO.state.is_mine = false := by rw [← hstate]; exact hpmf
      have hstep : bm.countMines = b.countMines + 1 := by
        rw [hbm]
        unfold Board.countMines
        rw [Board.setState_cells_of_some b p.1 p.2 _ cellO hsome]
        exact length_filter_set_incr _ b.cells _ cellO _ hsome hmf rfl
      simp only [List.map_cons, List.nodup_cons] at hnd
      obtain ⟨hhd, htl⟩ := hnd
      have hidx : ∀ (x y : Int), bm.index x y = b.index x y := by
        intro x y
        exact Board.setState_index b p.1 p.2 _ x y
      have hlen : bm.cells.length = b.cells.length := Board.setState_length b p.1 p.2 _
      have hrest : ∀ q ∈ rest.take n, (bm.index q.1 q.2).toNat < bm.cells.length ∧
          (bm.getState q.1 q.2).is_mine = false := by
        intro q hq
        have hne : (b.index q.1 q.2).toNat ≠ (b.index p.1 p.2).toNat := by
          intro he
          exact hhd (by
            rw [← he]
            exact List.mem_map.mpr ⟨q, hq, rfl⟩)
        constructor
        · rw [hidx, hlen]
          exact (hpos q (List.mem_cons_of_mem _ hq)).1
        · rw [hbm, Board.getState_setState_ne b p.1 p.2 _ q.1 q.2 hne]
          exact (hpos q (List.mem_cons_of_mem _ hq)).2
      have hndm : ((rest.take n).map (fun q => (bm.index q.1 q.2).toNat)).Nodup := by
        have : (fun q : Int × Int => (bm.index q.1 q.2).toNat)
            = (fun q : Int × Int => (b.index q.1 q.2).toNat) := by
          funext q
          rw [hidx]
        rw [this]
        exact htl
      have := ih bm rest b' h hrest hndm
      omega

theorem Board.markMines_getState_ne (n : Nat) (b : Board) (ps : List (Int × Int)) (b' : Board)
    (h : Board.markMines b ps n = some b') (c r : Int)
    (hne : ∀ p ∈ ps.take n, (b.index p.1 p.2).toNat ≠ (b.index c r).toNat) :
    b'.getState c r = b.getState c r := by
  have hcols : b'.cols = b.cols := (Board.markMines_scalars n b ps b' h).1
  unfold Board.getState
  have hidx : b'.index c r = b.index c r := by unfold Board.index; rw [hcols]
  rw [hidx, Board.markMines_get?_ne n b ps b' h _ hne]

/-! ## Adjacency pass lemmas -/

/-- Everything the adjacency pass leaves untouched: all scalar fields and
the (mine, revealed, flagged) projection of every cell. -/
def Board.AdjOnly (b b' : Board) : Prop :=
  b'.cols = b.cols ∧ b'.rows = b.rows ∧ b'.num_mines = b.num_mines ∧
  b'.mines_placed = b.mines_placed ∧ b'.revealed_count = b.revealed_count ∧
  b'.game_over = b.game_over ∧ b'.win = b.win ∧
  b'.cells.length = b.cells.length ∧ Board.ProjEq stateMRF b b'

theorem Board.adjOnly_refl (b : Board) : Board.AdjOnly b b :=
  ⟨rfl, rfl, rfl, rfl, rfl, rfl, rfl, rfl, Board.projEq_refl _ _⟩

theorem Board.adjOnly_trans {a b c : Board} (h1 : Board.AdjOnly a b)
    (h2 : Board.AdjOnly b c) : Board.AdjOnly a c := by
  obtain ⟨a1, a2, a3, a4, a5, a6, a7, a8, a9⟩ := h1
  obtain ⟨b1, b2, b3, b4, b5, b6, b7, b8, b9⟩ := h2
  exact ⟨b1.trans a1, b2.trans a2, b3.trans a3, b4.trans a4, b5.trans a5,
    b6.trans a6, b7.trans a7, b8.trans a8, Board.projEq_trans a9 b9⟩

/-- A fold whose every step extends a reflexive-transitive relation
extends it overall. -/
theorem foldl_rel_board {α : Type} (R : Board → Board → Prop)
    (hrefl : ∀ b, R b b) (htrans : ∀ {a b c : Board}, R a b → R b c → R a c)
    (step : Board → α → Board) (hstep : ∀ b x, R b (step b x)) :
    ∀ (l : List α) (b0 : Board), R b0 (l.foldl step b0) := by
  intro l
  induction l with
  | nil => intro b0; exact hrefl b0
  | cons hd tl ih =>
    intro b0
    exact htrans (hstep b0 hd) (ih (step b0 hd))

theorem Board.computeAdjacency_adjOnly (b : Board) : Board.AdjOnly b b.computeAdjacency := by
  unfold Board.computeAdjacency
  refine foldl_rel_board Board.AdjOnly Board.adjOnly_refl (fun h1 h2 => Board.adjOnly_trans h1 h2) _ ?_ _ b
  intro br r
  refine foldl_rel_board Board.AdjOnly Board.adjOnly_refl (fun h1 h2 => Board.adjOnly_trans h1 h2) _ ?_ _ br
  intro bc c
  by_cases hm : (bc.getState (Int.ofNat c) (Int.ofNat r)).is_mine = true
  · rw [if_pos hm]
    exact Board.adjOnly_refl bc
  · rw [if_neg hm]
    refine ⟨Board.setState_cols _ _ _ _, Board.setState_rows _ _ _ _,
      Board.setState_num_mines _ _ _ _, Board.setState_mines_placed _ _ _ _,
      Board.setState_revealed_count _ _ _ _, Board.setState_game_over _ _ _ _,
      Board.setState_win _ _ _ _, Board.setState_length _ _ _ _, ?_⟩
    exact Board.setState_projEq stateMRF bc _ _ _ rfl

/-! ## place_mines lemmas -/

theorem Board.markMines_some_le : ∀ (n : Nat) (b : Board) (ps : List (Int × Int)) (b' : Board),
    Board.markMines b ps n = some b' → n ≤ ps.length := by
  intro n
  induction n with
  | zero => intro b ps b' _; exact Nat.zero_le _
  | succ n ih =>
    intro b ps b' h
    cases ps with
    | nil => exact Option.noConfusion h
    | cons p rest =>
      simp only [Board.markMines] at h
      have := ih _ _ _ h
      simpa using Nat.succ_le_succ this

theorem Board.getState_mine_false_of_all (b : Board)
    (hmf : ∀ x ∈ b.cells, x.state.is_mine = false) (c r : Int) :
    (b.getState c r).is_mine = false := by
  unfold Board.getState
  cases h : b.cells[(b.index c r).toNat]? with
  | none => rfl
  | some cell => exact hmf cell (List.getElem?_mem h)

theorem Board.countMines_eq_zero (b : Board)
    (hmf : ∀ x ∈ b.cells, x.state.is_mine = false) : b.countMines = 0 := by
  unfold Board.countMines
  rw [List.filter_eq_nil_iff.mpr (by intro a ha; simp [hmf a ha])]
  rfl

theorem Board.place_mines_split (b : Board) (sc sr : Int)
    (sh : List (Int × Int) → List (Int × Int)) (b' : Board)
    (h : b.place_mines sc sr sh = some b') :
    ∃ b1, Board.markMines b (sh (b.pool sc sr)) b.num_mines.toNat = some b1 ∧
      b' = { b1.computeAdjacency with mines_placed := true } := by
  unfold Board.place_mines at h
  cases hm : Board.markMines b (sh (b.pool sc sr)) b.num_mines.toNat with
  | none => rw [hm] at h; exact Option.noConfusion h
  | some b1 =>
    rw [hm] at h
    exact ⟨b1, rfl, (Option.some_inj.mp h).symm⟩

theorem Board.place_mines_scalars (b : Board) (sc sr : Int)
    (sh : List (Int × Int) → List (Int × Int)) (b' : Board)
    (h : b.place_mines sc sr sh = some b') :
    b'.cols = b.cols ∧ b'.rows = b.rows ∧ b'.num_mines = b.num_mines ∧
    b'.mines_placed = true ∧ b'.revealed_count = b.revealed_count ∧
    b'.game_over = b.game_over ∧ b'.win = b.win ∧
    b'.cells.length = b.cells.length := by
  obtain ⟨b1, hm, rfl⟩ := Board.place_mines_split b sc sr sh b' h
  obtain ⟨e1, e2, e3, e4, e5, e6, e7, e8⟩ := Board.markMines_scalars _ _ _ _ hm
  obtain ⟨a1, a2, a3, a4, a5, a6, a7, a8, a9⟩ := Board.computeAdjacency_adjOnly b1
  exact ⟨a1.trans e1, a2.trans e2, a3.trans e3, rfl, a5.trans e5,
    a6.trans e6, a7.trans e7, a8.trans e8⟩

theorem Board.place_mines_projRF (b : Board) (sc sr : Int)
    (sh : List (Int × Int) → List (Int × Int)) (b' : Board)
    (h : b.place_mines sc sr sh = some b') :
    Board.ProjEq stateRF b b' := by
  obtain ⟨b1, hm, rfl⟩ := Board.place_mines_split b sc sr sh b' h
  have h1 : Board.ProjEq stateRF b b1 := Board.markMines_projRF _ _ _ _ hm
  have h2 : Board.ProjEq stateRF b1 b1.computeAdjacency :=
    (Board.computeAdjacency_adjOnly b1).2.2.2.2.2.2.2.2.mrf_rf
  exact Board.projEq_trans h1 h2

/-- After a successful `place_mines` on a mine-free board, the number of
mines equals `num_mines` (clamped at zero as Python's empty `range` does). -/
theorem Board.place_mines_countMines (b : Board) (sc sr : Int)
    (sh : List (Int × Int) → List (Int × Int)) (b' : Board)
    (hperm : ∀ l, (sh l).Perm l)
    (hlen : b.cells.length = b.rows.toNat * b.cols.toNat)
    (hmf : ∀ x ∈ b.cells, x.state.is_mine = false)
    (h : b.place_mines sc sr sh = some b') :
    b'.countMines = b.num_mines.toNat := by
  obtain ⟨b1, hm, rfl⟩ := Board.place_mines_split b sc sr sh b' h
  set ps := sh (b.pool sc sr) with hps
  have hmemps : ∀ q ∈ ps, q ∈ b.pool sc sr := by
    intro q hq
    exact (hperm (b.pool sc sr)).mem_iff.mp hq
  have hinb : ∀ q ∈ ps.take b.num_mines.toNat, b.is_inbounds q.1 q.2 = true := by
    intro q hq
    have := hmemps q (List.mem_of_mem_take hq)
    exact (b.mem_all_positions_iff q).mp (b.pool_subset_all sc sr q this)
  have hpos : ∀ q ∈ ps.take b.num_mines.toNat,
      (b.index q.1 q.2).toNat < b.cells.length ∧ (b.getState q.1 q.2).is_mine = false := by
    intro q hq
    exact ⟨b.index_toNat_lt q.1 q.2 (hinb q hq) hlen, b.getState_mine_false_of_all hmf q.1 q.2⟩
  have hndps : ps.Nodup := ((hperm (b.pool sc sr)).nodup_iff).mpr (b.pool_nodup sc sr)
  have hndtake : (ps.take b.num_mines.toNat).Nodup :=
    hndps.sublist (List.take_sublist _ _)
  have hnd : ((ps.take b.num_mines.toNat).map (fun q => (b.index q.1 q.2).toNat)).Nodup := by
    refine List.Nodup.map_on ?_ hndtake
    intro x hx y hy hxy
    exact b.index_inj x y (hinb x hx) (hinb y hy) hxy
  have hcount := Board.markMines_countMines _ _ _ _ hm hpos hnd
  have hzero := b.countMines_eq_zero hmf
  have hCA : (b1.computeAdjacency).countMines = b1.countMines :=
    Board.countMines_eq_of_projMF (Board.computeAdjacency_adjOnly b1).2.2.2.2.2.2.2.2.mrf_mf
  have hfinal : ({ b1.computeAdjacency with mines_placed := true } : Board).countMines
      = (b1.computeAdjacency).countMines := rfl
  rw [hfinal, hCA, hcount, hzero, Nat.zero_add]

/-- A successful `place_mines` never places a mine inside the forbidden
safe zone (on a mine-free board with a valid safe origin). -/
theorem Board.place_mines_safe (b : Board) (sc sr : Int)
    (sh : List (Int × Int) → List (Int × Int)) (b' : Board)
    (hperm : ∀ l, (sh l).Perm l)
    (hinb : b.is_inbounds sc sr = true)
    (hmf : ∀ x ∈ b.cells, x.state.is_mine = false)
    (h : b.place_mines sc sr sh = some b') :
    ∀ p ∈ b.forbidden sc sr, (b'.getState p.1 p.2).is_mine = false := by
  intro p hp
  obtain ⟨b1, hm, rfl⟩ := Board.place_mines_split b sc sr sh b' h
  have hpinb : b.is_inbounds p.1 p.2 = true := by
    rcases List.mem_cons.mp hp with rfl | hp'
    · exact hinb
    · exact b.neighbors_inbounds sc sr p hp'
  have hne : ∀ q ∈ (sh (b.pool sc sr)).take b.num_mines.toNat,
      (b.index q.1 q.2).toNat ≠ (b.index p.1 p.2).toNat := by
    intro q hq he
    have hqpool : q ∈ b.pool sc sr :=
      (hperm (b.pool sc sr)).mem_iff.mp (List.mem_of_mem_take hq)
    have hqinb : b.is_inbounds q.1 q.2 = true :=
      (b.mem_all_positions_iff q).mp (b.pool_subset_all sc sr q hqpool)
    have : q = p := b.index_inj q p hqinb hpinb he
    subst this
    exact b.pool_not_forbidden sc sr q hqpool hp
  have h1 : b1.getState p.1 p.2 = b.getState p.1 p.2 :=
    Board.markMines_getState_ne _ _ _ _ hm p.1 p.2 hne
  have hca : Board.ProjEq stateMF b1 b1.computeAdjacency :=
    (Board.computeAdjacency_adjOnly b1).2.2.2.2.2.2.2.2.mrf_mf
  have hcols : (b1.computeAdjacency).cols = b1.cols := (Board.computeAdjacency_adjOnly b1).1
  have h2 : stateMF ((b1.computeAdjacency).getState p.1 p.2) = stateMF (b1.getState p.1 p.2) :=
    hca.getState hcols p.1 p.2
  have h3 : (({ b1.computeAdjacency with mines_placed := true } : Board).getState p.1 p.2)
      = (b1.computeAdjacency).getState p.1 p.2 := rfl
  have h4 : ((b1.computeAdjacency).getState p.1 p.2).is_mine = (b1.getState p.1 p.2).is_mine :=
    congrArg Prod.fst h2
  rw [h3, h4, h1]
  exact b.getState_mine_false_of_all hmf p.1 p.2

/-- Success criterion for `place_mines`: the pool is large enough. -/
theorem Board.place_mines_isSome (b : Board) (sc sr : Int)
    (sh : List (Int × Int) → List (Int × Int))
    (hperm : ∀ l, (sh l).Perm l)
    (hn : b.num_mines.toNat ≤ (b.pool sc sr).length) :
    ∃ b', b.place_mines sc sr sh = some b' := by
  have hlen : (sh (b.pool sc sr)).length = (b.pool sc sr).length :=
    (hperm (b.pool sc sr)).length_eq
  obtain ⟨b1, hb1⟩ := Board.markMines_isSome b.num_mines.toNat b (sh (b.pool sc sr))
    (by rw [hlen]; exact hn)
  refine ⟨{ b1.computeAdjacency with mines_placed := true }, ?_⟩
  unfold Board.place_mines
  rw [hb1]

/-! ## Flood-fill lemmas -/

theorem Board.floodFill_nil (fuel : Nat) (b : Board) :
    Board.floodFill fuel b [] = b := by
  cases fuel <;> rfl

theorem Board.floodFill_zero (b : Board) (ws : List (Int × Int)) :
    Board.floodFill 0 b ws = b := by
  cases ws <;> rfl

theorem Board.floodFill_cons (fuel : Nat) (b : Board) (c r : Int) (rest : List (Int × Int)) :
    Board.floodFill (fuel + 1) b ((c, r) :: rest) =
      if (b.getState c r).is_revealed || (b.getState c r).is_flagged then
        Board.floodFill fuel b rest
      else
        Board.floodFill fuel (b.revealCell c r)
          ((if (b.getState c r).adjacent = 0 then (b.revealCell c r).floodPushes c r
            else []).reverse ++ rest) := rfl

theorem Board.revealCell_cols (b : Board) (c r : Int) : (b.revealCell c r).cols = b.cols :=
  Board.setState_cols b c r _

theorem Board.revealCell_rows (b : Board) (c r : Int) : (b.revealCell c r).rows = b.rows :=
  Board.setState_rows b c r _

theorem Board.revealCell_num_mines (b : Board) (c r : Int) :
    (b.revealCell c r).num_mines = b.num_mines :=
  Board.setState_num_mines b c r _

theorem Board.revealCell_mines_placed (b : Board) (c r : Int) :
    (b.revealCell c r).mines_placed = b.mines_placed :=
  Board.setState_mines_placed b c r _

theorem Board.revealCell_game_over (b : Board) (c r : Int) :
    (b.revealCell c r).game_over = b.game_over :=
  Board.setState_game_over b c r _

theorem Board.revealCell_win (b : Board) (c r : Int) : (b.revealCell c r).win = b.win :=
  Board.setState_win b c r _

theorem Board.revealCell_length (b : Board) (c r : Int) :
    (b.revealCell c r).cells.length = b.cells.length :=
  Board.setState_length b c r _

theorem Board.revealCell_count (b : Board) (c r : Int) :
    (b.revealCell c r).revealed_count = b.revealed_count + 1 := rfl

theorem Board.revealCell_cells (b : Board) (c r : Int) :
    (b.revealCell c r).cells = (b.setState c r { b.getState c r with is_revealed := true }).cells
    := rfl

theorem Board.revealCell_projMF (b : Board) (c r : Int) :
    Board.ProjEq stateMF b (b.revealCell c r) := by
  intro i
  rw [Board.revealCell_cells]
  exact Board.setState_projEq stateMF b c r { b.getState c r with is_revealed := true } rfl i

/-- Everything one flood-fill pass leaves intact: scalar fields other than
`revealed_count`, the (mine, flagged) projection of each cell, and the
monotonicity of `is_revealed`. -/
def Board.FloodStep (b b' : Board) : Prop :=
  b'.cols = b.cols ∧ b'.rows = b.rows ∧ b'.num_mines = b.num_mines ∧
  b'.mines_placed = b.mines_placed ∧ b'.game_over = b.game_over ∧ b'.win = b.win ∧
  b'.cells.length = b.cells.length ∧ Board.ProjEq stateMF b b' ∧
  (∀ i : Nat, ∀ x y : Cell, b.cells[i]? = some x → b'.cells[i]? = some y →
    x.state.is_revealed = true → y.state.is_revealed = true)

theorem Board.floodStep_refl (b : Board) : Board.FloodStep b b := by
  refine ⟨rfl, rfl, rfl, rfl, rfl, rfl, rfl, Board.projEq_refl _ _, ?_⟩
  intro i x y hx hy hrev
  rw [hx] at hy
  rw [← Option.some_inj.mp hy]
  exact hrev

theorem Board.floodStep_trans {a b c : Board} (h1 : Board.FloodStep a b)
    (h2 : Board.FloodStep b c) : Board.FloodStep a c := by
  obtain ⟨a1, a2, a3, a4, a5, a6, a7, a8, a9⟩ := h1
  obtain ⟨b1, b2, b3, b4, b5, b6, b7, b8, b9⟩ := h2
  refine ⟨b1.trans a1, b2.trans a2, b3.trans a3, b4.trans a4, b5.trans a5,
    b6.trans a6, b7.trans a7, Board.projEq_trans a8 b8, ?_⟩
  intro i x z hx hz hrev
  cases hy : b.cells[i]? with
  | none =>
    have := a8 i
    rw [hy, hx] at this
    exact Option.noConfusion this
  | some y =>
    exact b9 i y z hy hz (a9 i x y hx hy hrev)

theorem Board.revealCell_floodStep (b : Board) (c r : Int) :
    Board.FloodStep b (b.revealCell c r) := by
  refine ⟨Board.revealCell_cols b c r, Board.revealCell_rows b c r,
    Board.revealCell_num_mines b c r, Board.revealCell_mines_placed b c r,
    Board.revealCell_game_over b c r, Board.revealCell_win b c r,
    Board.revealCell_length b c r, Board.revealCell_projMF b c r, ?_⟩
  intro i x y hx hy hrev
  by_cases hi : i = (b.index c r).toNat
  · subst hi
    rw [Board.revealCell_cells] at hy
    rw [Board.setState_get?_self b c r _ _ hx] at hy
    rw [← Option.some_inj.mp hy]
  · rw [Board.revealCell_cells, Board.setState_get?_ne b c r _ i hi, hx] at hy
    rw [← Option.some_inj.mp hy]
    exact hrev

theorem Board.floodFill_floodStep : ∀ (fuel : Nat) (b : Board) (ws : List (Int × Int)),
    Board.FloodStep b (Board.floodFill fuel b ws) := by
  intro fuel
  induction fuel with
  | zero =>
    intro b ws
    rw [Board.floodFill_zero]
    exact Board.floodStep_refl b
  | succ fuel ih =>
    intro b ws
    cases ws with
    | nil =>
      rw [Board.floodFill_nil]
      exact Board.floodStep_refl b
    | cons p rest =>
      obtain ⟨c, r⟩ := p
      rw [Board.floodFill_cons]
      by_cases hg : ((b.getState c r).is_revealed || (b.getState c r).is_flagged) = true
      · rw [if_pos hg]
        exact ih b rest
      · rw [if_neg hg]
        exact Board.floodStep_trans (Board.revealCell_floodStep b c r) (ih _ _)

theorem Board.is_inbounds_congr (b b' : Board) (hc : b'.cols = b.cols) (hr : b'.rows = b.rows)
    (c r : Int) : b'.is_inbounds c r = b.is_inbounds c r := by
  unfold Board.is_inbounds
  rw [hc, hr]

/-- The count invariant and the flag-revelation invariant are preserved by
the flood fill, for any fuel, as long as the work list only holds in-bounds
non-mine positions. -/
theorem Board.floodFill_inv : ∀ (fuel : Nat) (b : Board) (ws : List (Int × Int)),
    b.cells.length = b.rows.toNat * b.cols.toNat →
    (∀ p ∈ ws, b.is_inbounds p.1 p.2 = true ∧ (b.getState p.1 p.2).is_mine = false) →
    b.revealed_count = (b.countRevealedSafe : Int) →
    (∀ x ∈ b.cells, x.state.is_flagged = true → x.state.is_revealed = true →
      x.state.is_mine = true) →
    (Board.floodFill fuel b ws).revealed_count
        = ((Board.floodFill fuel b ws).countRevealedSafe : Int) ∧
    (∀ x ∈ (Board.floodFill fuel b ws).cells, x.state.is_flagged = true →
      x.state.is_revealed = true → x.state.is_mine = true) := by
  intro fuel
  induction fuel with
  | zero =>
    intro b ws hlen hws hcount hflag
    rw [Board.floodFill_zero]
    exact ⟨hcount, hflag⟩
  | succ fuel ih =>
    intro b ws hlen hws hcount hflag
    cases ws with
    | nil =>
      rw [Board.floodFill_nil]
      exact ⟨hcount, hflag⟩
    | cons p rest =>
      obtain ⟨c, r⟩ := p
      rw [Board.floodFill_cons]
      by_cases hg : ((b.getState c r).is_revealed || (b.getState c r).is_flagged) = true
      · rw [if_pos hg]
        exact ih b rest hlen (fun q hq => hws q (List.mem_cons_of_mem _ hq)) hcount hflag
      · rw [if_neg hg]
        have hrev : (b.getState c r).is_revealed = false := by
          cases h1 : (b.getState c r).is_revealed <;> simp_all
        have hflg : (b.getState c r).is_flagged = false := by
          cases h1 : (b.getState c r).is_flagged <;> simp_all
        obtain ⟨hinb, hmine⟩ := hws (c, r) (List.mem_cons_self _ _)
        have hidxlt : (b.index c r).toNat < b.cells.length := b.index_toNat_lt c r hinb hlen
        obtain ⟨cell, hsome⟩ : ∃ cl, b.cells[(b.index c r).toNat]? = some cl :=
          ⟨_, List.getElem?_eq_getElem hidxlt⟩
        have hstate : b.getState c r = cell.state := Board.getState_of_some b c r cell hsome
        set b2 := b.revealCell c r with hb2
        have hcells2 : b2.cells = b.cells.set (b.index c r).toNat
            { cell with state := { b.getState c r with is_revealed := true } } := by
          rw [hb2, Board.revealCell_cells,
            Board.setState_cells_of_some b c r _ cell hsome]
        have hsafe2 : b2.countRevealedSafe = b.countRevealedSafe + 1 := by
          unfold Board.countRevealedSafe
          rw [hcells2]
          refine length_filter_set_incr _ b.cells _ cell _ hsome ?_ ?_
          · rw [← hstate]
            simp [hrev]
          · simp [hmine]
        have hcount2 : b2.revealed_count = (b2.countRevealedSafe : Int) := by
          rw [hb2, Board.revealCell_count, hsafe2, hcount]
          push_cast
          ring
        have hflag2 : ∀ x ∈ b2.cells, x.state.is_flagged = true →
            x.state.is_revealed = true → x.state.is_mine = true := by
          intro x hx hxf hxr
          rw [hb2, Board.revealCell_cells] at hx
          rcases Board.setState_mem b c r _ x hx with hx' | hx'
          · exact hflag x hx' hxf hxr
          · rw [hx'] at hxf
            simp only [] at hxf
            rw [hflg] at hxf
            exact Bool.noConfusion hxf
        have hlen2 : b2.cells.length = b2.rows.toNat * b2.cols.toNat := by
          rw [hb2, Board.revealCell_length, Board.revealCell_rows, Board.revealCell_cols]
          exact hlen
        have hmine2 : ∀ x y : Int, (b2.getState x y).is_mine = (b.getState x y).is_mine := by
          intro x y
          have := (Board.revealCell_projMF b c r).getState (Board.revealCell_cols b c r) x y
          exact congrArg Prod.fst this
        have hws2 : ∀ q ∈ ((if (b.getState c r).adjacent = 0 then b2.floodPushes c r
            else []).reverse ++ rest),
            b2.is_inbounds q.1 q.2 = true ∧ (b2.getState q.1 q.2).is_mine = false := by
          intro q hq
          rcases List.mem_append.mp hq with hq' | hq'
          · rw [List.mem_reverse] at hq'
            by_cases hadj : (b.getState c r).adjacent = 0
            · rw [if_pos hadj] at hq'
              unfold Board.floodPushes at hq'
              have hmem := List.mem_of_mem_filter hq'
              have hpred := List.of_mem_filter hq'
              simp only [Bool.and_eq_true, Bool.not_eq_true'] at hpred
              exact ⟨b2.neighbors_inbounds c r q hmem, hpred.2⟩
            · rw [if_neg hadj] at hq'
              exact absurd hq' (List.not_mem_nil q)
          · obtain ⟨hqi, hqm⟩ := hws q (List.mem_cons_of_mem _ hq')
            refine ⟨?_, ?_⟩
            · rw [Board.is_inbounds_congr b b2 (Board.revealCell_cols b c r)
                (Board.revealCell_rows b c r)]
              exact hqi
            · rw [hmine2]
              exact hqm
        exact ih b2 _ hlen2 hws2 hcount2 hflag2

/-! ## reveal_all_mines and check_win lemmas -/

theorem length_filter_map_pres {α : Type} (p : α → Bool) (f : α → α) (l : List α)
    (h : ∀ x ∈ l, p (f x) = p x) : ((l.map f).filter p).length = (l.filter p).length := by
  induction l with
  | nil => rfl
  | cons hd tl ih =>
    simp only [List.map_cons, List.filter]
    rw [h hd (List.mem_cons_self _ _)]
    cases hp : p hd <;>
      simp [ih (fun x hx => h x (List.mem_cons_of_mem _ hx))]

theorem length_filter_le_of_imp {α : Type} (p q : α → Bool) (l : List α)
    (h : ∀ x ∈ l, p x = true → q x = true) :
    (l.filter p).length ≤ (l.filter q).length := by
  induction l with
  | nil => exact Nat.le_refl _
  | cons hd tl ih =>
    have ih' := ih (fun x hx => h x (List.mem_cons_of_mem _ hx))
    simp only [List.filter]
    cases hp : p hd
    · cases hq : q hd <;> simp <;> omega
    · rw [h hd (List.mem_cons_self _ _) hp]
      simpa using ih'

/-- If `p` implies `q` pointwise and the `q`-count does not exceed the
`p`-count, then `q` implies `p` on every element. -/
theorem filter_imp_all {α : Type} (p q : α → Bool) (l : List α)
    (himp : ∀ x ∈ l, p x = true → q x = true)
    (hlen : (l.filter q).length ≤ (l.filter p).length) :
    ∀ x ∈ l, q x = true → p x = true := by
  induction l with
  | nil => intro x hx; simp at hx
  | cons hd tl ih =>
    intro x hx hqx
    have himp' := fun y hy => himp y (List.mem_cons_of_mem _ hy)
    rcases List.mem_cons.mp hx with rfl | hx'
    · by_contra hpx
      have hpx' : p x = false := by
        cases hp : p x
        · rfl
        · exact absurd hp hpx
      have hle := length_filter_le_of_imp p q tl himp'
      rw [List.filter_cons, List.filter_cons, hpx', hqx] at hlen
      simp only [if_true, if_false, Bool.false_eq_true, List.length_cons] at hlen
      omega
    · refine ih himp' ?_ x hx' hqx
      rw [List.filter_cons, List.filter_cons] at hlen
      cases hp : p hd with
      | false =>
        cases hq : q hd with
        | false =>
          rw [hp, hq] at hlen
          simpa using hlen
        | true =>
          rw [hp, hq] at hlen
          simp only [if_true, Bool.false_eq_true, if_false, List.length_cons] at hlen
          omega
      | true =>
        cases hq : q hd with
        | false =>
          exact absurd (himp hd (List.mem_cons_self _ _) hp) (by simp [hq])
        | true =>
          rw [hp, hq] at hlen
          simp only [if_true, List.length_cons] at hlen
          omega

theorem Board.reveal_all_mines_scalars (b : Board) :
    (b.reveal_all_mines).cols = b.cols ∧ (b.reveal_all_mines).rows = b.rows ∧
    (b.reveal_all_mines).num_mines = b.num_mines ∧
    (b.reveal_all_mines).mines_placed = b.mines_placed ∧
    (b.reveal_all_mines).revealed_count = b.revealed_count ∧
    (b.reveal_all_mines).game_over = b.game_over ∧
    (b.reveal_all_mines).win = b.win ∧
    (b.reveal_all_mines).cells.length = b.cells.length := by
  unfold Board.reveal_all_mines
  exact ⟨rfl, rfl, rfl, rfl, rfl, rfl, rfl, by simp⟩

theorem Board.reveal_all_mines_get? (b : Board) (i : Nat) :
    (b.reveal_all_mines).cells[i]? = (b.cells[i]?).map (fun x =>
      if x.state.is_mine = true then { x with state := { x.state with is_revealed := true } }
      else x) := by
  unfold Board.reveal_all_mines
  simp [List.getElem?_map]

theorem Board.reveal_all_mines_projMF (b : Board) :
    Board.ProjEq stateMF b b.reveal_all_mines := by
  intro i
  rw [Board.reveal_all_mines_get?]
  cases h : b.cells[i]? with
  | none => rfl
  | some x =>
    simp only [Option.map_some]
    by_cases hm : x.state.is_mine = true <;> simp [hm, stateMF]

theorem Board.reveal_all_mines_countRevealedSafe (b : Board) :
    (b.reveal_all_mines).countRevealedSafe = b.countRevealedSafe := by
  unfold Board.reveal_all_mines Board.countRevealedSafe
  refine length_filter_map_pres _ _ b.cells ?_
  intro x _
  by_cases hm : x.state.is_mine = true <;> simp [hm]

theorem Board.check_win_neg (b : Board)
    (h : ¬(b.revealed_count = b.cols * b.rows - b.num_mines ∧ b.game_over = false)) :
    b.check_win = b := by
  unfold Board.check_win
  rw [if_neg h]

theorem Board.check_win_pos_win (b : Board)
    (h : b.revealed_count = b.cols * b.rows - b.num_mines ∧ b.game_over = false) :
    (b.check_win).win = true := by
  unfold Board.check_win
  rw [if_pos h]

theorem Board.check_win_pos_cells (b : Board)
    (h : b.revealed_count = b.cols * b.rows - b.num_mines ∧ b.game_over = false) :
    (b.check_win).cells = b.cells.map (fun c =>
      if !c.state.is_revealed && !c.state.is_mine then
        { c with state := { c.state with is_revealed := true } }
      else c) := by
  unfold Board.check_win
  rw [if_pos h]

theorem Board.check_win_scalars (b : Board) :
    (b.check_win).cols = b.cols ∧ (b.check_win).rows = b.rows ∧
    (b.check_win).num_mines = b.num_mines ∧ (b.check_win).mines_placed = b.mines_placed ∧
    (b.check_win).revealed_count = b.revealed_count ∧
    (b.check_win).game_over = b.game_over ∧ (b.check_win).cells.length = b.cells.length := by
  unfold Board.check_win
  by_cases h : b.revealed_count = b.cols * b.rows - b.num_mines ∧ b.game_over = false
  · rw [if_pos h]
    exact ⟨rfl, rfl, rfl, rfl, rfl, rfl, by simp⟩
  · rw [if_neg h]
    exact ⟨rfl, rfl, rfl, rfl, rfl, rfl, rfl⟩

/-- When the win condition fires, after `check_win` every non-mine cell is
revealed: the defensive sweep forces it directly. -/
theorem Board.check_win_pos_nonmine_revealed (b : Board)
    (h : b.revealed_count = b.cols * b.rows - b.num_mines ∧ b.game_over = false) :
    ∀ x ∈ (b.check_win).cells, x.state.is_mine = false → x.state.is_revealed = true := by
  intro x hx hm
  rw [Board.check_win_pos_cells b h] at hx
  obtain ⟨y, hy, rfl⟩ := List.mem_map.mp hx
  by_cases hc : (!y.state.is_revealed && !y.state.is_mine) = true
  · rw [if_pos hc]
  · rw [if_neg hc] at hm ⊢
    simp only [Bool.and_eq_true, Bool.not_eq_true'] at hc
    cases hr : y.state.is_revealed
    · exact absurd ⟨hr, hm⟩ hc
    · rfl

/-! ## toggle_flag lemmas -/

theorem Board.toggle_flag_scalars (b : Board) (c r : Int) :
    (b.toggle_flag c r).cols = b.cols ∧ (b.toggle_flag c r).rows = b.rows ∧
    (b.toggle_flag c r).num_mines = b.num_mines ∧
    (b.toggle_flag c r).mines_placed = b.mines_placed ∧
    (b.toggle_flag c r).revealed_count = b.revealed_count ∧
    (b.toggle_flag c r).game_over = b.game_over ∧
    (b.toggle_flag c r).win = b.win ∧
    (b.toggle_flag c r).cells.length = b.cells.length := by
  unfold Board.toggle_flag
  by_cases h1 : (!(b.is_inbounds c r)) = true
  · rw [if_pos h1]
    exact ⟨rfl, rfl, rfl, rfl, rfl, rfl, rfl, rfl⟩
  · rw [if_neg h1]
    by_cases h2 : (b.getState c r).is_revealed = true
    · rw [if_pos h2]
      exact ⟨rfl, rfl, rfl, rfl, rfl, rfl, rfl, rfl⟩
    · rw [if_neg h2]
      exact ⟨Board.setState_cols _ _ _ _, Board.setState_rows _ _ _ _,
        Board.setState_num_mines _ _ _ _, Board.setState_mines_placed _ _ _ _,
        Board.setState_revealed_count _ _ _ _, Board.setState_game_over _ _ _ _,
        Board.setState_win _ _ _ _, Board.setState_length _ _ _ _⟩

theorem Board.toggle_flag_projMR (b : Board) (c r : Int) :
    Board.ProjEq stateMR b (b.toggle_flag c r) := by
  unfold Board.toggle_flag
  by_cases h1 : (!(b.is_inbounds c r)) = true
  · rw [if_pos h1]
    exact Board.projEq_refl _ _
  · rw [if_neg h1]
    by_cases h2 : (b.getState c r).is_revealed = true
    · rw [if_pos h2]
      exact Board.projEq_refl _ _
    · rw [if_neg h2]
      exact Board.setState_projEq stateMR b c r _ rfl

/-- Every cell after `toggle_flag` is an old cell, or an unrevealed cell
whose (mine, revealed) data belonged to some old cell. -/
theorem Board.toggle_flag_mem (b : Board) (c r : Int) :
    ∀ x ∈ (b.toggle_flag c r).cells, x ∈ b.cells ∨
      (x.state.is_revealed = false ∧ ∃ y ∈ b.cells,
        y.state.is_mine = x.state.is_mine ∧ y.state.is_revealed = x.state.is_revealed) := by
  unfold Board.toggle_flag
  by_cases h1 : (!(b.is_inbounds c r)) = true
  · rw [if_pos h1]
    intro x hx
    exact Or.inl hx
  · rw [if_neg h1]
    by_cases h2 : (b.getState c r).is_revealed = true
    · rw [if_pos h2]
      intro x hx
      exact Or.inl hx
    · rw [if_neg h2]
      intro x hx
      unfold Board.setState at hx
      cases hg : b.cells[(b.index c r).toNat]? with
      | none =>
        rw [hg] at hx
        exact Or.inl hx
      | some cell =>
        rw [hg] at hx
        rcases List.mem_or_eq_of_mem_set hx with hx' | rfl
        · exact Or.inl hx'
        · right
          have hstate : b.getState c r = cell.state := Board.getState_of_some b c r cell hg
          have hrev2 : (b.getState c r).is_revealed = false := by
            cases h : (b.getState c r).is_revealed
            · rfl
            · exact absurd h h2
          exact ⟨hrev2, cell, List.getElem?_mem hg,
            (congrArg CellState.is_mine hstate).symm,
            (congrArg CellState.is_revealed hstate).symm⟩

/-! ## The reachable-state invariant -/

/-- Invariant of every reachable board state. `count_eq` records that the
counter tracks revealed NON-mine cells (the loss path reveals mines without
touching the counter); `flag_rev` records that only mine cells can be both
flagged and revealed (the loss sweep reveals flagged mines). -/
structure Board.Inv (b : Board) : Prop where
  len : b.cells.length = b.rows.toNat * b.cols.toNat
  count_eq : b.revealed_count = (b.countRevealedSafe : Int)
  flag_rev : ∀ x ∈ b.cells, x.state.is_flagged = true → x.state.is_revealed = true →
    x.state.is_mine = true
  win_rev : b.win = true → ∀ x ∈ b.cells, x.state.is_mine = false →
    x.state.is_revealed = true
  unplaced : b.mines_placed = false →
    (∀ x ∈ b.cells, x.state.is_mine = false ∧ x.state.is_revealed = false) ∧
    b.revealed_count = 0 ∧ b.game_over = false ∧ b.win = false
  placed : b.mines_placed = true →
    b.countMines = b.num_mines.toNat ∧ 0 < b.cols ∧ 0 < b.rows

theorem Board.getState_rev_false_of_all (b : Board)
    (hall : ∀ x ∈ b.cells, x.state.is_revealed = false) (c r : Int) :
    (b.getState c r).is_revealed = false := by
  unfold Board.getState
  cases h : b.cells[(b.index c r).toNat]? with
  | none => rfl
  | some cell => exact hall cell (List.getElem?_mem h)

theorem Board.countRevealedSafe_eq_zero (b : Board)
    (hall : ∀ x ∈ b.cells, x.state.is_revealed = false) : b.countRevealedSafe = 0 := by
  unfold Board.countRevealedSafe
  rw [List.filter_eq_nil_iff.mpr (by intro a ha; simp [hall a ha])]
  rfl

theorem Board.init_inv (cols rows mines : Int) : Board.Inv (Board.init cols rows mines) := by
  refine ⟨Board.init_length cols rows mines, ?_, ?_, ?_, ?_, ?_⟩
  · rw [Board.countRevealedSafe_eq_zero _ (fun x hx => by
      rw [Board.init_cells_state cols rows mines x hx]; rfl)]
    rfl
  · intro x hx hf
    rw [Board.init_cells_state cols rows mines x hx] at hf
    exact Bool.noConfusion hf
  · intro hw
    exact Bool.noConfusion hw
  · intro _
    refine ⟨fun x hx => ?_, rfl, rfl, rfl⟩
    rw [Board.init_cells_state cols rows mines x hx]
    exact ⟨rfl, rfl⟩
  · intro hp
    exact Bool.noConfusion hp

theorem Board.toggle_flag_inv (b : Board) (c r : Int) (hInv : Board.Inv b) :
    Board.Inv (b.toggle_flag c r) := by
  obtain ⟨s1, s2, s3, s4, s5, s6, s7, s8⟩ := Board.toggle_flag_scalars b c r
  have hproj := Board.toggle_flag_projMR b c r
  refine ⟨?_, ?_, ?_, ?_, ?_, ?_⟩
  · rw [s8, s2, s1]
    exact hInv.len
  · rw [s5, Board.countRevealedSafe_eq_of_projMR hproj]
    exact hInv.count_eq
  · intro x hx hxf hxr
    rcases Board.toggle_flag_mem b c r x hx with hx' | ⟨hxrev, -⟩
    · exact hInv.flag_rev x hx' hxf hxr
    · rw [hxrev] at hxr
      exact Bool.noConfusion hxr
  · intro hw x hx hxm
    rw [s7] at hw
    rcases Board.toggle_flag_mem b c r x hx with hx' | ⟨hxrev, y, hy, hym, hyr⟩
    · exact hInv.win_rev hw x hx' hxm
    · exfalso
      have := hInv.win_rev hw y hy (by rw [hym, hxm])
      rw [hyr, hxrev] at this
      exact Bool.noConfusion this
  · intro hmp
    rw [s4] at hmp
    obtain ⟨hall, hc, hg, hw⟩ := hInv.unplaced hmp
    refine ⟨?_, by rw [s5]; exact hc, by rw [s6]; exact hg, by rw [s7]; exact hw⟩
    intro x hx
    rcases Board.toggle_flag_mem b c r x hx with hx' | ⟨hxrev, y, hy, hym, -⟩
    · exact hall x hx'
    · exact ⟨by rw [← hym]; exact (hall y hy).1, hxrev⟩
  · intro hmp
    rw [s4] at hmp
    obtain ⟨hcm, hc, hr⟩ := hInv.placed hmp
    exact ⟨by rw [Board.countMines_eq_of_projMR hproj, s3]; exact hcm,
      by rw [s1]; exact hc, by rw [s2]; exact hr⟩

/-- Monotone revelation transports the all-non-mines-revealed property
across a flood step. -/
theorem Board.floodStep_win_rev {b b' : Board} (hs : Board.FloodStep b b')
    (hw : ∀ x ∈ b.cells, x.state.is_mine = false → x.state.is_revealed = true) :
    ∀ y ∈ b'.cells, y.state.is_mine = false → y.state.is_revealed = true := by
  obtain ⟨-, -, -, -, -, -, -, hproj, hmono⟩ := hs
  intro y hy hym
  obtain ⟨i, hi⟩ := List.getElem?_of_mem hy
  have hpi := hproj i
  rw [hi] at hpi
  cases hx : b.cells[i]? with
  | none =>
    rw [hx] at hpi
    exact Option.noConfusion hpi
  | some x =>
    rw [hx] at hpi
    have hMF : stateMF y.state = stateMF x.state := by
      simpa using hpi
    have hxm : x.state.is_mine = false := by
      have := congrArg Prod.fst hMF
      simp only [stateMF] at this
      rw [← this]
      exact hym
    exact hmono i x y hx hi (hw x (List.getElem?_mem hx) hxm)

theorem Board.is_inbounds_pos (b : Board) (c r : Int) (h : b.is_inbounds c r = true) :
    0 < b.cols ∧ 0 < b.rows := by
  unfold Board.is_inbounds at h
  rw [decide_eq_true_eq] at h
  omega

/-- A successful lazy placement on an unplaced reachable board yields an
invariant-satisfying placed board with the clicked cell still unrevealed. -/
theorem Board.place_mines_inv (b : Board) (col row : Int)
    (sh : List (Int × Int) → List (Int × Int)) (b1 : Board)
    (hperm : ∀ l, (sh l).Perm l)
    (hinb : b.is_inbounds col row = true)
    (hmp : b.mines_placed = false)
    (hInv : Board.Inv b)
    (hpm : b.place_mines col row sh = some b1) :
    Board.Inv b1 ∧ (b1.getState col row).is_revealed = false ∧
      b1.is_inbounds col row = true := by
  obtain ⟨s1, s2, s3, s4, s5, s6, s7, s8⟩ := Board.place_mines_scalars b col row sh b1 hpm
  obtain ⟨hall, hc0, hg0, hw0⟩ := hInv.unplaced hmp
  have hprojRF := Board.place_mines_projRF b col row sh b1 hpm
  have hallrev1 : ∀ x ∈ b1.cells, x.state.is_revealed = false := by
    have := forall_mem_of_proj (fun c : Cell => stateRF c.state) (fun q => q.1 = false)
      b.cells b1.cells hprojRF (fun x hx => (hall x hx).2)
    exact this
  refine ⟨⟨?_, ?_, ?_, ?_, ?_, ?_⟩, ?_, ?_⟩
  · rw [s8, s2, s1]
    exact hInv.len
  · rw [s5, hc0, Board.countRevealedSafe_eq_zero b1 hallrev1]
    rfl
  · intro x hx hxf hxr
    rw [hallrev1 x hx] at hxr
    exact Bool.noConfusion hxr
  · intro hw
    rw [s7, hw0] at hw
    exact Bool.noConfusion hw
  · intro h
    rw [s4] at h
    exact Bool.noConfusion h
  · intro _
    refine ⟨?_, ?_, ?_⟩
    · rw [s3]
      exact Board.place_mines_countMines b col row sh b1 hperm hInv.len
        (fun x hx => (hall x hx).1) hpm
    · rw [s1]
      exact (b.is_inbounds_pos col row hinb).1
    · rw [s2]
      exact (b.is_inbounds_pos col row hinb).2
  · exact Board.getState_rev_false_of_all b1 hallrev1 col row
  · rw [Board.is_inbounds_congr b b1 s1 s2]
    exact hinb

theorem Board.countRevealedSafe_setState_mine (b : Board) (c r : Int)
    (hm : (b.getState c r).is_mine = true) :
    (b.setState c r { b.getState c r with is_revealed := true }).countRevealedSafe
      = b.countRevealedSafe := by
  cases hg : b.cells[(b.index c r).toNat]? with
  | none => rw [Board.setState_get?_none b c r _ hg]
  | some cell =>
    unfold Board.countRevealedSafe
    rw [Board.setState_cells_of_some b c r _ cell hg]
    refine length_filter_set_same _ b.cells _ cell _ hg ?_
    have hstate : b.getState c r = cell.state := Board.getState_of_some b c r cell hg
    have h1 : cell.state.is_mine = true := by rw [← hstate]; exact hm
    simp [h1, hm]

/-- The loss path preserves the invariant: only mine cells get revealed and
the counter is untouched. -/
theorem Board.revealPlaced_loss_inv (b1 : Board) (col row : Int)
    (hmine : (b1.getState col row).is_mine = true)
    (hmp : b1.mines_placed = true)
    (hInv : Board.Inv b1) :
    Board.Inv (({ b1.setState col row { b1.getState col row with is_revealed := true } with
        game_over := true } : Board).reveal_all_mines) := by
  set b2 := b1.setState col row { b1.getState col row with is_revealed := true } with hb2
  set b3 : Board := { b2 with game_over := true } with hb3
  obtain ⟨r1, r2, r3, r4, r5, r6, r7, r8⟩ := Board.reveal_all_mines_scalars b3
  have e_cols : b2.cols = b1.cols := Board.setState_cols b1 col row _
  have e_rows : b2.rows = b1.rows := Board.setState_rows b1 col row _
  have e_nm : b2.num_mines = b1.num_mines := Board.setState_num_mines b1 col row _
  have e_mp : b2.mines_placed = b1.mines_placed := Board.setState_mines_placed b1 col row _
  have e_rc : b2.revealed_count = b1.revealed_count := Board.setState_revealed_count b1 col row _
  have e_w : b2.win = b1.win := Board.setState_win b1 col row _
  have e_len : b2.cells.length = b1.cells.length := Board.setState_length b1 col row _
  have f_cols : b3.cols = b2.cols := rfl
  have f_rows : b3.rows = b2.rows := rfl
  have f_nm : b3.num_mines = b2.num_mines := rfl
  have f_mp : b3.mines_placed = b2.mines_placed := rfl
  have f_rc : b3.revealed_count = b2.revealed_count := rfl
  have f_w : b3.win = b2.win := rfl
  have f_cells : b3.cells = b2.cells := rfl
  have hproj12 : Board.ProjEq stateMF b1 b2 :=
    Board.setState_projEq stateMF b1 col row _ rfl
  have hproj23 : Board.ProjEq stateMF b2 b3 := fun _ => rfl
  have hproj34 : Board.ProjEq stateMF b3 b3.reveal_all_mines :=
    Board.reveal_all_mines_projMF b3
  have hproj14 : Board.ProjEq stateMF b1 b3.reveal_all_mines :=
    Board.projEq_trans (Board.projEq_trans hproj12 hproj23) hproj34
  have hmem4 : ∀ x ∈ (b3.reveal_all_mines).cells, ∃ y ∈ b2.cells,
      x = if y.state.is_mine = true then
        { y with state := { y.state with is_revealed := true } } else y := by
    intro x hx
    unfold Board.reveal_all_mines at hx
    simp only [List.mem_map] at hx
    obtain ⟨y, hy, rfl⟩ := hx
    refine ⟨y, hy, ?_⟩
    by_cases hym : y.state.is_mine = true
    · simp [hym]
    · simp [hym]
  refine ⟨?_, ?_, ?_, ?_, ?_, ?_⟩
  · rw [r8, r2, r1, f_cells, f_rows, f_cols, e_len, e_rows, e_cols]
    exact hInv.len
  · rw [r5, Board.reveal_all_mines_countRevealedSafe, f_rc, e_rc]
    have hcs : b3.countRevealedSafe = b2.countRevealedSafe := by
      unfold Board.countRevealedSafe
      rw [f_cells]
    rw [hcs, hb2, Board.countRevealedSafe_setState_mine b1 col row hmine]
    exact hInv.count_eq
  · intro x hx hxf hxr
    obtain ⟨y, hy, hxy⟩ := hmem4 x hx
    by_cases hym : y.state.is_mine = true
    · rw [hxy, if_pos hym]
      exact hym
    · rw [hxy, if_neg hym] at hxf hxr ⊢
      rcases Board.setState_mem b1 col row _ y hy with hy' | hys
      · exact hInv.flag_rev y hy' hxf hxr
      · have hcontra : y.state.is_mine = (b1.getState col row).is_mine := by rw [hys]
        rw [hcontra, hmine] at hym
        exact absurd rfl hym
  · intro hw x hx hxm
    obtain ⟨y, hy, hxy⟩ := hmem4 x hx
    by_cases hym : y.state.is_mine = true
    · rw [hxy, if_pos hym] at hxm
      simp only [] at hxm
      rw [hym] at hxm
      exact Bool.noConfusion hxm
    · rw [hxy, if_neg hym] at hxm ⊢
      rcases Board.setState_mem b1 col row _ y hy with hy' | hys
      · rw [r7, f_w, e_w] at hw
        exact hInv.win_rev hw y hy' hxm
      · have hcontra : y.state.is_mine = (b1.getState col row).is_mine := by rw [hys]
        rw [hcontra, hmine] at hym
        exact absurd rfl hym
  · intro h
    rw [r4, f_mp, e_mp, hmp] at h
    exact Bool.noConfusion h
  · intro _
    obtain ⟨hcm, hc, hr⟩ := hInv.placed hmp
    refine ⟨?_, ?_, ?_⟩
    · rw [Board.countMines_eq_of_projMF hproj14, r3, f_nm, e_nm]
      exact hcm
    · rw [r1, f_cols, e_cols]
      exact hc
    · rw [r2, f_rows, e_rows]
      exact hr

/-- The flood-fill path (including the final `_check_win`) preserves the
invariant. -/
theorem Board.revealPlaced_flood_inv (b1 : Board) (col row : Int)
    (hinb : b1.is_inbounds col row = true)
    (hmine : (b1.getState col row).is_mine = false)
    (hmp : b1.mines_placed = true)
    (hInv : Board.Inv b1) :
    Board.Inv (Board.check_win (Board.floodFill (9 * b1.cells.length + 1) b1 [(col, row)])) := by
  set bf := Board.floodFill (9 * b1.cells.length + 1) b1 [(col, row)] with hbf
  have hfiv := Board.floodFill_inv (9 * b1.cells.length + 1) b1 [(col, row)] hInv.len
    (by
      intro p hp
      rcases List.mem_cons.mp hp with rfl | hp'
      · exact ⟨hinb, hmine⟩
      · exact absurd hp' (List.not_mem_nil p))
    hInv.count_eq hInv.flag_rev
  have hfs := Board.floodFill_floodStep (9 * b1.cells.length + 1) b1 [(col, row)]
  obtain ⟨g1, g2, g3, g4, g5, g6, g7, gproj, gmono⟩ := hfs
  have hInvf : Board.Inv bf := by
    refine ⟨?_, hfiv.1, hfiv.2, ?_, ?_, ?_⟩
    · rw [g7, g2, g1]
      exact hInv.len
    · intro hw
      rw [g6] at hw
      exact Board.floodStep_win_rev ⟨g1, g2, g3, g4, g5, g6, g7, gproj, gmono⟩
        (hInv.win_rev hw)
    · intro h
      rw [g4, hmp] at h
      exact Bool.noConfusion h
    · intro _
      obtain ⟨hcm, hc, hr⟩ := hInv.placed hmp
      refine ⟨?_, by rw [g1]; exact hc, by rw [g2]; exact hr⟩
      rw [Board.countMines_eq_of_projMF gproj, g3]
      exact hcm
  by_cases hcond : bf.revealed_count = bf.cols * bf.rows - bf.num_mines ∧ bf.game_over = false
  · -- the win branch: derive that every non-mine cell is already revealed,
    -- so the defensive sweep is the identity
    have hplacedf : bf.mines_placed = true := by rw [g4]; exact hmp
    obtain ⟨hcm, hcols, hrows⟩ := hInvf.placed hplacedf
    have hcm' : bf.countMines = (bf.cells.filter (fun x => x.state.is_mine)).length := rfl
    have hcs' : bf.countRevealedSafe =
        (bf.cells.filter (fun x => x.state.is_revealed && !x.state.is_mine)).length := rfl
    have hsplit := length_filter_add_length_filter_not
      (fun x : Cell => x.state.is_mine) bf.cells
    have hsafe_le : bf.countRevealedSafe ≤ bf.cells.length := by
      rw [hcs']
      exact List.length_filter_le _ _
    have hcast : bf.cols * bf.rows = ((bf.rows.toNat * bf.cols.toNat : Nat) : Int) := by
      push_cast
      rw [Int.toNat_of_nonneg (by omega : (0 : Int) ≤ bf.rows),
        Int.toNat_of_nonneg (by omega : (0 : Int) ≤ bf.cols)]
      ring
    have hlenf : bf.cells.length = bf.rows.toNat * bf.cols.toNat := hInvf.len
    have hc1 := hcond.1
    have hc2 := hInvf.count_eq
    have hnotmine : (bf.cells.filter (fun x => !(x.state.is_mine))).length
        = bf.countRevealedSafe := by
      omega
    have himp2 : ∀ x ∈ bf.cells,
        (x.state.is_revealed && !x.state.is_mine) = true → (!x.state.is_mine) = true := by
      intro x _ hx
      simp only [Bool.and_eq_true] at hx
      exact hx.2
    have hall0 := filter_imp_all _ _ bf.cells himp2 (by rw [hcs'] at hnotmine; omega)
    have hallm : ∀ x ∈ bf.cells, x.state.is_mine = false → x.state.is_revealed = true := by
      intro x hx hxm
      have := hall0 x hx (by simp [hxm])
      simp only [Bool.and_eq_true] at this
      exact this.1
    obtain ⟨c1, c2, c3, c4, c5, c6, c7⟩ := Board.check_win_scalars bf
    have hcells : (Board.check_win bf).cells = bf.cells := by
      rw [Board.check_win_pos_cells bf hcond]
      have hid : ∀ x ∈ bf.cells, (if !x.state.is_revealed && !x.state.is_mine then
          { x with state := { x.state with is_revealed := true } } else x) = x := by
        intro x hx
        have hcond2 : (!x.state.is_revealed && !x.state.is_mine) = false := by
          cases hxm : x.state.is_mine
          · rw [hallm x hx hxm]
            rfl
          · simp
        rw [hcond2]
        simp
      calc bf.cells.map (fun x => if !x.state.is_revealed && !x.state.is_mine then
            { x with state := { x.state with is_revealed := true } } else x)
          = bf.cells.map id := List.map_congr_left hid
        _ = bf.cells := List.map_id bf.cells
    refine ⟨?_, ?_, ?_, ?_, ?_, ?_⟩
    · rw [hcells, c2, c1]
      exact hInvf.len
    · rw [c5]
      have : (Board.check_win bf).countRevealedSafe = bf.countRevealedSafe := by
        unfold Board.countRevealedSafe
        rw [hcells]
      rw [this]
      exact hInvf.count_eq
    · intro x hx hxf hxr
      rw [hcells] at hx
      exact hInvf.flag_rev x hx hxf hxr
    · intro _ x hx hxm
      rw [hcells] at hx
      exact hallm x hx hxm
    · intro h
      rw [c4, hplacedf] at h
      exact Bool.noConfusion h
    · intro _
      refine ⟨?_, by rw [c1]; exact hcols, by rw [c2]; exact hrows⟩
      have : (Board.check_win bf).countMines = bf.countMines := by
        unfold Board.countMines
        rw [hcells]
      rw [this, c3]
      exact hcm
  · rw [Board.check_win_neg bf hcond]
    exact hInvf

theorem Board.revealPlaced_inv (b1 : Board) (col row : Int)
    (hinb : b1.is_inbounds col row = true)
    (hmp : b1.mines_placed = true)
    (hInv : Board.Inv b1) : Board.Inv (b1.revealPlaced col row) := by
  unfold Board.revealPlaced
  by_cases hf : (b1.getState col row).is_flagged = true
  · rw [if_pos hf]
    exact hInv
  · rw [if_neg hf]
    by_cases hm : (b1.getState col row).is_mine = true
    · rw [if_pos hm]
      exact Board.revealPlaced_loss_inv b1 col row hm hmp hInv
    · rw [if_neg hm]
      have hm' : (b1.getState col row).is_mine = false := by
        cases hv : (b1.getState col row).is_mine
        · rfl
        · exact absurd hv hm
      exact Board.revealPlaced_flood_inv b1 col row hinb hm' hmp hInv

theorem Board.reveal_inv (b : Board) (col row : Int)
    (sh : List (Int × Int) → List (Int × Int)) (b' : Board)
    (hperm : ∀ l, (sh l).Perm l) (hInv : Board.Inv b)
    (h : b.reveal col row sh = some b') : Board.Inv b' := by
  unfold Board.reveal at h
  by_cases h1 : (!(b.is_inbounds col row) || b.game_over) = true
  · rw [if_pos h1] at h
    rw [← Option.some_inj.mp h]
    exact hInv
  · rw [if_neg h1] at h
    have hinb : b.is_inbounds col row = true := by
      cases hv : b.is_inbounds col row
      · rw [hv] at h1
        simp at h1
      · rfl
    by_cases h2 : (b.getState col row).is_revealed = true
    · rw [if_pos h2] at h
      rw [← Option.some_inj.mp h]
      exact hInv
    · rw [if_neg h2] at h
      by_cases hmp : b.mines_placed = true
      · rw [if_pos hmp] at h
        have h' : some (b.revealPlaced col row) = some b' := h
        rw [← Option.some_inj.mp h']
        exact Board.revealPlaced_inv b col row hinb hmp hInv
      · rw [if_neg hmp] at h
        cases hpm : b.place_mines col row sh with
        | none =>
          rw [hpm] at h
          exact Option.noConfusion h
        | some b1 =>
          rw [hpm] at h
          have h' : some (b1.revealPlaced col row) = some b' := h
          rw [← Option.some_inj.mp h']
          have hmp' : b.mines_placed = false := by
            cases hv : b.mines_placed
            · rfl
            · exact absurd hv hmp
          obtain ⟨hInv1, -, hinb1⟩ :=
            Board.place_mines_inv b col row sh b1 hperm hinb hmp' hInv hpm
          have hmp1 : b1.mines_placed = true :=
            (Board.place_mines_scalars b col row sh b1 hpm).2.2.2.1
          exact Board.revealPlaced_inv b1 col row hinb1 hmp1 hInv1

/-- Every reachable board state satisfies the invariant. -/
theorem Reachable.inv : ∀ {b : Board}, Reachable b → Board.Inv b := by
  intro b h
  induction h with
  | init cols rows mines => exact Board.init_inv cols rows mines
  | reveal b col row sh b' hr hperm hrev ih =>
    exact Board.reveal_inv b col row sh b' hperm ih hrev
  | toggle b col row hr ih => exact Board.toggle_flag_inv b col row ih

/-! ## Path-reduction lemmas for reveal -/

theorem Board.revealPlaced_flagged (b1 : Board) (col row : Int)
    (hf : (b1.getState col row).is_flagged = true) :
    b1.revealPlaced col row = b1 := by
  unfold Board.revealPlaced
  rw [if_pos hf]

theorem Board.revealPlaced_mine (b1 : Board) (col row : Int)
    (hf : (b1.getState col row).is_flagged = false)
    (hm : (b1.getState col row).is_mine = true) :
    b1.revealPlaced col row =
      ({ b1.setState col row { b1.getState col row with is_revealed := true } with
          game_over := true } : Board).reveal_all_mines := by
  unfold Board.revealPlaced
  rw [if_neg (by simp [hf]), if_pos hm]

theorem Board.revealPlaced_flood (b1 : Board) (col row : Int)
    (hf : (b1.getState col row).is_flagged = false)
    (hm : (b1.getState col row).is_mine = false) :
    b1.revealPlaced col row =
      Board.check_win (Board.floodFill (9 * b1.cells.length + 1) b1 [(col, row)]) := by
  unfold Board.revealPlaced
  rw [if_neg (by simp [hf]), if_neg (by simp [hm])]

theorem Board.reveal_unplaced_eq (b : Board) (col row : Int)
    (sh : List (Int × Int) → List (Int × Int))
    (hinb : b.is_inbounds col row = true)
    (hgo : b.game_over = false)
    (hrev : (b.getState col row).is_revealed = false)
    (hmp : b.mines_placed = false)
    (b1 : Board) (hpm : b.place_mines col row sh = some b1) :
    b.reveal col row sh = some (b1.revealPlaced col row) := by
  unfold Board.reveal
  have hg1 : (!(b.is_inbounds col row) || b.game_over) = false := by
    rw [hinb, hgo]
    rfl
  rw [if_neg (by simp [hg1]), if_neg (by simp [hrev]), if_neg (by simp [hmp]), hpm]

theorem Board.reveal_placed_eq (b : Board) (col row : Int)
    (sh : List (Int × Int) → List (Int × Int))
    (hinb : b.is_inbounds col row = true)
    (hgo : b.game_over = false)
    (hrev : (b.getState col row).is_revealed = false)
    (hmp : b.mines_placed = true) :
    b.reveal col row sh = some (b.revealPlaced col row) := by
  unfold Board.reveal
  have hg1 : (!(b.is_inbounds col row) || b.game_over) = false := by
    rw [hinb, hgo]
    rfl
  rw [if_neg (by simp [hg1]), if_neg (by simp [hrev]), if_pos hmp]

theorem Board.check_win_projMF (b : Board) : Board.ProjEq stateMF b b.check_win := by
  by_cases hcond : b.revealed_count = b.cols * b.rows - b.num_mines ∧ b.game_over = false
  · intro i
    rw [Board.check_win_pos_cells b hcond]
    rw [List.getElem?_map]
    cases h : b.cells[i]? with
    | none => rfl
    | some x =>
      cases hxr : x.state.is_revealed <;> cases hxm : x.state.is_mine <;>
        simp [stateMF, hxr, hxm]
  · rw [Board.check_win_neg b hcond]
    exact Board.projEq_refl _ _

/-- The whole post-placement reveal body never changes a cell's mine or
flag status, nor the grid dimensions. -/
theorem Board.revealPlaced_projMF (b1 : Board) (col row : Int) :
    Board.ProjEq stateMF b1 (b1.revealPlaced col row) ∧
    (b1.revealPlaced col row).cols = b1.cols := by
  unfold Board.revealPlaced
  by_cases hf : (b1.getState col row).is_flagged = true
  · rw [if_pos hf]
    exact ⟨Board.projEq_refl _ _, rfl⟩
  · rw [if_neg hf]
    by_cases hm : (b1.getState col row).is_mine = true
    · rw [if_pos hm]
      set b2 := b1.setState col row { b1.getState col row with is_revealed := true } with hb2
      set b3 : Board := { b2 with game_over := true } with hb3
      have h12 : Board.ProjEq stateMF b1 b2 := Board.setState_projEq stateMF b1 col row _ rfl
      have h23 : Board.ProjEq stateMF b2 b3 := fun _ => rfl
      have h34 : Board.ProjEq stateMF b3 b3.reveal_all_mines :=
        Board.reveal_all_mines_projMF b3
      refine ⟨Board.projEq_trans (Board.projEq_trans h12 h23) h34, ?_⟩
      have e1 : (b3.reveal_all_mines).cols = b3.cols := (Board.reveal_all_mines_scalars b3).1
      have e2 : b3.cols = b2.cols := rfl
      have e3 : b2.cols = b1.cols := Board.setState_cols b1 col row _
      rw [e1, e2, e3]
    · rw [if_neg hm]
      obtain ⟨g1, -, -, -, -, -, -, gproj, -⟩ :=
        Board.floodFill_floodStep (9 * b1.cells.length + 1) b1 [(col, row)]
      set bf := Board.floodFill (9 * b1.cells.length + 1) b1 [(col, row)] with hbf
      refine ⟨Board.projEq_trans gproj (Board.check_win_projMF bf), ?_⟩
      rw [(Board.check_win_scalars bf).1, g1]

theorem Board.all_positions_length (b : Board) :
    b.all_positions.length = b.rows.toNat * b.cols.toNat := by
  unfold Board.all_positions
  rw [List.length_flatMap]
  have hfn : (List.length ∘ fun r : Nat => (List.range b.cols.toNat).map
      (fun c => (Int.ofNat c, Int.ofNat r))) = fun _ : Nat => b.cols.toNat := by
    funext r
    rw [Function.comp_apply, List.length_map, List.length_range]
  rw [hfn]
  exact sum_const_range b.rows.toNat b.cols.toNat

theorem Board.neighbors_length_le (b : Board) (c r : Int) :
    (b.neighbors c r).length ≤ 8 := by
  unfold Board.neighbors
  calc (deltas.filterMap _).length ≤ deltas.length := List.length_filterMap_le _ _
  _ = 8 := rfl

theorem Board.getState_of_none (b : Board) (c r : Int)
    (h : b.cells[(b.index c r).toNat]? = none) : b.getState c r = CellState.init := by
  unfold Board.getState
  rw [h]

/-! ## The claims -/

/-- Claim C1: the flagged-cell count query must always return the exact
number of flagged cells.  The code's `flagged_count` body is an unfinished
`pass` stub, so the call returns Python `None` on every board — here shown
on a fresh 1×1 board whose true flagged count is 0. -/
theorem claim_C1_flagged_count_is_stub :
    Board.flagged_count (Board.init 1 1 0) = none ∧
    Board.flaggedCountSpec (Board.init 1 1 0) = 0 := by
  constructor
  · rfl
  · rfl

/-- Claim C9: construction is claimed to fail fast when
`numMines > cols*rows - 9`.  The code's `__init__` performs no validation:
`Board(1, 1, 5)` constructs a perfectly ordinary board (all cells
unrevealed, unflagged, mine-free), and the invalid configuration only
surfaces later: the first `reveal` raises `IndexError` inside
`place_mines` (modelled as `none`). -/
theorem claim_C9_no_constructor_validation :
    (Board.init 1 1 5).num_mines = 5 ∧
    (Board.init 1 1 5).cells.length = 1 ∧
    (Board.init 1 1 5).game_over = false ∧
    (Board.init 1 1 5).win = false ∧
    (∀ x ∈ (Board.init 1 1 5).cells, x.state = CellState.init) ∧
    (Board.init 1 1 5).reveal 0 0 id = none := by
  refine ⟨rfl, rfl, rfl, rfl, ?_, by decide⟩
  decide

/-- Claim C6: revealing an in-bounds, unrevealed, unflagged mine while the
game is running sets `game_over`, leaves `win` false, reveals the clicked
mine and every other mine, and reveals no non-mine cell.  The final
per-cell clause says: mine and flag bits are untouched, and a cell ends up
revealed exactly when it was already revealed or is a mine. -/
theorem claim_C6_loss_path (b : Board) (col row : Int)
    (sh : List (Int × Int) → List (Int × Int))
    (hinb : b.is_inbounds col row = true)
    (hgo : b.game_over = false)
    (hmp : b.mines_placed = true)
    (hrev : (b.getState col row).is_revealed = false)
    (hflag : (b.getState col row).is_flagged = false)
    (hmine : (b.getState col row).is_mine = true)
    (hwin : b.win = false) :
    ∃ b', b.reveal col row sh = some b' ∧
      b'.game_over = true ∧ b'.win = false ∧
      (b'.getState col row).is_revealed = true ∧
      b'.cells.length = b.cells.length ∧
      (∀ q ∈ b.cells.zip b'.cells,
        (q.2.state.is_mine, q.2.state.is_flagged, q.2.state.is_revealed) =
          (q.1.state.is_mine, q.1.state.is_flagged,
            q.1.state.is_revealed || q.1.state.is_mine)) := by
  have hreveal := Board.reveal_placed_eq b col row sh hinb hgo hrev hmp
  have hbody := Board.revealPlaced_mine b col row hflag hmine
  set b2 := b.setState col row { b.getState col row with is_revealed := true } with hb2
  set b3 : Board := { b2 with game_over := true } with hb3
  set b4 := b3.reveal_all_mines with hb4
  obtain ⟨r1, r2, r3, r4, r5, r6, r7, r8⟩ := Board.reveal_all_mines_scalars b3
  have hcellO : ∃ cellO, b.cells[(b.index col row).toNat]? = some cellO := by
    cases hg : b.cells[(b.index col row).toNat]? with
    | none =>
      exfalso
      rw [Board.getState_of_none b col row hg] at hmine
      exact Bool.noConfusion hmine
    | some cellO => exact ⟨cellO, rfl⟩
  obtain ⟨cellO, hgO⟩ := hcellO
  have hstate : b.getState col row = cellO.state := Board.getState_of_some b col row cellO hgO
  have hcm : cellO.state.is_mine = true := by rw [← hstate]; exact hmine
  have e_cols : b2.cols = b.cols := Board.setState_cols b col row _
  have f_cells : b3.cells = b2.cells := rfl
  have hproj6 : ∀ i : Nat, (b4.cells[i]?).map
        (fun c : Cell => (c.state.is_mine, c.state.is_flagged, c.state.is_revealed))
      = (b.cells[i]?).map
        (fun c : Cell => (c.state.is_mine, c.state.is_flagged,
          c.state.is_revealed || c.state.is_mine)) := by
    intro i
    rw [hb4, Board.reveal_all_mines_get? b3 i]
    have hb3i : b3.cells[i]? = b2.cells[i]? := by rw [f_cells]
    rw [hb3i]
    by_cases hi : i = (b.index col row).toNat
    · subst hi
      rw [hb2, Board.setState_get?_self b col row _ cellO hgO, hgO]
      simp [hcm, hstate]
    · rw [hb2, Board.setState_get?_ne b col row _ i hi]
      cases hy : b.cells[i]? with
      | none => rfl
      | some y =>
        by_cases hym : y.state.is_mine = true
        · simp [hym]
        · have hym' : y.state.is_mine = false := by
            cases hv : y.state.is_mine
            · rfl
            · exact absurd hv hym
          simp [hym', Bool.or_false]
  refine ⟨b4, by rw [hreveal, hbody], ?_, ?_, ?_, ?_, ?_⟩
  · rw [r6]
  · rw [r7, show b3.win = b.win from (Board.setState_win b col row _ : b2.win = b.win), hwin]
  · have h4i := hproj6 (b.index col row).toNat
    rw [hgO] at h4i
    have hidx4 : b4.index col row = b.index col row := by
      unfold Board.index
      rw [r1, show b3.cols = b.cols from e_cols]
    unfold Board.getState
    rw [hidx4]
    cases h4 : b4.cells[(b.index col row).toNat]? with
    | none =>
      rw [h4] at h4i
      exact Option.noConfusion h4i
    | some z =>
      rw [h4] at h4i
      have h4i2 : (z.state.is_mine, z.state.is_flagged, z.state.is_revealed)
          = (cellO.state.is_mine, cellO.state.is_flagged,
             cellO.state.is_revealed || cellO.state.is_mine) := Option.some_inj.mp h4i
      have h4r := congrArg (fun t : Bool × Bool × Bool => t.2.2) h4i2
      simp only [] at h4r
      show z.state.is_revealed = true
      rw [h4r, hcm, Bool.or_true]
  · rw [r8, show b3.cells.length = b.cells.length from
      (Board.setState_length b col row _ : b2.cells.length = b.cells.length)]
  · exact zip_rel_of_proj _ _ b.cells b4.cells hproj6

/-- Concrete 2×1 board used to witness the loss path: one mine at (1,0),
mines already placed, game running. -/
def c6Witness : Board :=
  { cols := 2, rows := 1, num_mines := 1,
    cells := [⟨0, 0, ⟨false, false, false, 1⟩⟩, ⟨1, 0, ⟨true, false, false, 0⟩⟩],
    mines_placed := true, revealed_count := 0, game_over := false, win := false }

/-- Witness for C6: clicking the mine of `c6Witness` loses the game and
reveals exactly the mine. -/
theorem claim_C6_loss_path_witness :
    c6Witness.is_inbounds 1 0 = true ∧ c6Witness.game_over = false ∧
    c6Witness.mines_placed = true ∧
    (c6Witness.getState 1 0).is_revealed = false ∧
    (c6Witness.getState 1 0).is_flagged = false ∧
    (c6Witness.getState 1 0).is_mine = true ∧ c6Witness.win = false ∧
    (∃ b', c6Witness.reveal 1 0 id = some b' ∧
      b'.game_over = true ∧ b'.win = false ∧
      (b'.getState 1 0).is_revealed = true ∧
      b'.cells.length = c6Witness.cells.length ∧
      (∀ q ∈ c6Witness.cells.zip b'.cells,
        (q.2.state.is_mine, q.2.state.is_flagged, q.2.state.is_revealed) =
          (q.1.state.is_mine, q.1.state.is_flagged,
            q.1.state.is_revealed || q.1.state.is_mine))) :=
  ⟨by decide, by decide, by decide, by decide, by decide, by decide, by decide,
    claim_C6_loss_path c6Witness 1 0 id (by decide) (by decide) (by decide) (by decide)
      (by decide) (by decide) (by decide)⟩

/-- A reveal body that changed `revealed_count` must have taken the
flood-fill branch: the flag guard and the loss path leave the counter
untouched. -/
theorem Board.revealPlaced_count_change (b1 : Board) (col row : Int)
    (hne : (b1.revealPlaced col row).revealed_count ≠ b1.revealed_count) :
    b1.revealPlaced col row =
      Board.check_win (Board.floodFill (9 * b1.cells.length + 1) b1 [(col, row)]) := by
  unfold Board.revealPlaced at hne ⊢
  by_cases hf : (b1.getState col row).is_flagged = true
  · rw [if_pos hf] at hne
    exact absurd rfl hne
  · rw [if_neg hf] at hne ⊢
    by_cases hm : (b1.getState col row).is_mine = true
    · rw [if_pos hm] at hne
      exfalso
      apply hne
      set b2 := b1.setState col row { b1.getState col row with is_revealed := true } with hb2
      set b3 : Board := { b2 with game_over := true } with hb3
      have e1 : (b3.reveal_all_mines).revealed_count = b3.revealed_count :=
        (Board.reveal_all_mines_scalars b3).2.2.2.2.1
      have e2 : b3.revealed_count = b2.revealed_count := rfl
      have e3 : b2.revealed_count = b1.revealed_count :=
        Board.setState_revealed_count b1 col row _
      rw [e1, e2, e3]
    · rw [if_neg hm]

/-- Claim C7: whenever a reveal call that actually revealed at least one
cell (the counter changed — precisely the successful non-losing reveals)
ends with `revealedCount = cols*rows - numMines` and `gameOver` still
false, then `win` has been set and every non-mine cell is revealed. -/
theorem claim_C7_win_condition (b : Board) (col row : Int)
    (sh : List (Int × Int) → List (Int × Int)) (b' : Board)
    (h : b.reveal col row sh = some b')
    (hchange : b'.revealed_count ≠ b.revealed_count)
    (hcount : b'.revealed_count = b'.cols * b'.rows - b'.num_mines)
    (hgo' : b'.game_over = false) :
    b'.win = true ∧
    ∀ x ∈ b'.cells, x.state.is_mine = false → x.state.is_revealed = true := by
  unfold Board.reveal at h
  by_cases h1 : (!(b.is_inbounds col row) || b.game_over) = true
  · rw [if_pos h1] at h
    rw [← Option.some_inj.mp h] at hchange
    exact absurd rfl hchange
  · rw [if_neg h1] at h
    by_cases h2 : (b.getState col row).is_revealed = true
    · rw [if_pos h2] at h
      rw [← Option.some_inj.mp h] at hchange
      exact absurd rfl hchange
    · rw [if_neg h2] at h
      have hfinish : ∀ b1 : Board, b' = b1.revealPlaced col row →
          b1.revealed_count = b.revealed_count →
          b'.win = true ∧
          ∀ x ∈ b'.cells, x.state.is_mine = false → x.state.is_revealed = true := by
        intro b1 hb' hb1c
        have hne : (b1.revealPlaced col row).revealed_count ≠ b1.revealed_count := by
          rw [← hb', hb1c]
          exact hchange
        have hbody := Board.revealPlaced_count_change b1 col row hne
        rw [hbody] at hb'
        subst hb'
        set bf := Board.floodFill (9 * b1.cells.length + 1) b1 [(col, row)] with hbf
        obtain ⟨c1, c2, c3, c4, c5, c6, c7⟩ := Board.check_win_scalars bf
        have hcond : bf.revealed_count = bf.cols * bf.rows - bf.num_mines ∧
            bf.game_over = false := by
          constructor
          · rw [← c5, ← c1, ← c2, ← c3]
            exact hcount
          · rw [← c6]
            exact hgo'
        exact ⟨Board.check_win_pos_win bf hcond,
          Board.check_win_pos_nonmine_revealed bf hcond⟩
      by_cases hmp : b.mines_placed = true
      · rw [if_pos hmp] at h
        exact hfinish b (Option.some_inj.mp h).symm rfl
      · rw [if_neg hmp] at h
        cases hpm : b.place_mines col row sh with
        | none =>
          rw [hpm] at h
          exact Option.noConfusion h
        | some b1 =>
          rw [hpm] at h
          exact hfinish b1 (Option.some_inj.mp h).symm
            (Board.place_mines_scalars b col row sh b1 hpm).2.2.2.2.1

/-- Concrete 2×1 mine-free board used to witness the win condition. -/
def c7Witness : Board :=
  { cols := 2, rows := 1, num_mines := 0,
    cells := [⟨0, 0, ⟨false, false, false, 0⟩⟩, ⟨1, 0, ⟨false, false, false, 0⟩⟩],
    mines_placed := true, revealed_count := 0, game_over := false, win := false }

/-- Witness for C7: revealing (0,0) on `c7Witness` cascades to both cells,
reaches the winning count 2 = 2*1 - 0, sets `win`, and reveals every
non-mine cell. -/
theorem claim_C7_win_condition_witness :
    (∃ b', c7Witness.reveal 0 0 id = some b' ∧
      b'.revealed_count ≠ c7Witness.revealed_count ∧
      b'.revealed_count = b'.cols * b'.rows - b'.num_mines ∧
      b'.game_over = false ∧ b'.win = true ∧
      ∀ x ∈ b'.cells, x.state.is_mine = false → x.state.is_revealed = true) := by
  refine ⟨(c7Witness.reveal 0 0 id).getD c7Witness, by decide, by decide, by decide,
    by decide, ?_⟩
  exact claim_C7_win_condition c7Witness 0 0 id _ (by decide) (by decide) (by decide)
    (by decide)

/-- Claim C2: first-click safety.  On a reachable board whose mines have
not yet been placed, if the mine count fits in the candidate pool
(`numMines ≤ cols*rows` minus the size of the safe zone), then the first
reveal at any in-bounds coordinate succeeds and afterwards neither the
clicked cell nor any of its in-bounds neighbors (the `forbidden` safe
zone) is a mine. -/
theorem claim_C2_first_click_safety (b : Board) (col row : Int)
    (sh : List (Int × Int) → List (Int × Int))
    (hreach : Reachable b)
    (hperm : ∀ l, (sh l).Perm l)
    (hmp : b.mines_placed = false)
    (hinb : b.is_inbounds col row = true)
    (hmines : b.num_mines ≤ b.cols * b.rows - ((b.forbidden col row).length : Int)) :
    ∃ b', b.reveal col row sh = some b' ∧
      ∀ p ∈ b.forbidden col row, (b'.getState p.1 p.2).is_mine = false := by
  have hInv := hreach.inv
  obtain ⟨hall, hc0, hg0, hw0⟩ := hInv.unplaced hmp
  have hmf : ∀ x ∈ b.cells, x.state.is_mine = false := fun x hx => (hall x hx).1
  have hrev : (b.getState col row).is_revealed = false :=
    Board.getState_rev_false_of_all b (fun x hx => (hall x hx).2) col row
  have hpl := b.pool_length col row hinb
  have hal := b.all_positions_length
  obtain ⟨hcpos, hrpos⟩ := b.is_inbounds_pos col row hinb
  have hcast : b.cols * b.rows = ((b.rows.toNat * b.cols.toNat : Nat) : Int) := by
    push_cast
    rw [Int.toNat_of_nonneg (by omega : (0 : Int) ≤ b.rows),
      Int.toNat_of_nonneg (by omega : (0 : Int) ≤ b.cols)]
    ring
  have hn : b.num_mines.toNat ≤ (b.pool col row).length := by omega
  obtain ⟨b1, hpm⟩ := Board.place_mines_isSome b col row sh hperm hn
  have hreveal := Board.reveal_unplaced_eq b col row sh hinb hg0 hrev hmp b1 hpm
  have hsafe1 := Board.place_mines_safe b col row sh b1 hperm hinb hmf hpm
  obtain ⟨hprojMF, hcols'⟩ := Board.revealPlaced_projMF b1 col row
  refine ⟨b1.revealPlaced col row, hreveal, ?_⟩
  intro p hp
  have hMF := hprojMF.getState hcols' p.1 p.2
  have hm1 : ((b1.revealPlaced col row).getState p.1 p.2).is_mine
      = (b1.getState p.1 p.2).is_mine := congrArg Prod.fst hMF
  rw [hm1]
  exact hsafe1 p hp

/-- Witness for C2: the very first click at the corner (0,0) of a fresh
3×3 board with one mine. -/
theorem claim_C2_first_click_safety_witness :
    (Board.init 3 3 1).mines_placed = false ∧
    (Board.init 3 3 1).is_inbounds 0 0 = true ∧
    (Board.init 3 3 1).num_mines ≤ (Board.init 3 3 1).cols * (Board.init 3 3 1).rows
      - (((Board.init 3 3 1).forbidden 0 0).length : Int) ∧
    (∃ b', (Board.init 3 3 1).reveal 0 0 id = some b' ∧
      ∀ p ∈ (Board.init 3 3 1).forbidden 0 0, (b'.getState p.1 p.2).is_mine = false) :=
  ⟨by decide, by decide, by decide,
    claim_C2_first_click_safety (Board.init 3 3 1) 0 0 id (Reachable.init 3 3 1)
      (fun l => List.Perm.refl l) (by decide) (by decide) (by decide)⟩

/-- Claim C10: a first reveal (mines not yet placed, game running) that
targets an in-bounds, flagged (hence unrevealed) cell still places the
mines — `minesPlaced` becomes true and exactly `numMines` mines are set,
using the clicked cell as safe origin — but reveals nothing: the counter,
`gameOver`, `win`, and every cell's revealed/flagged bits are unchanged.
The bound `numMines ≤ cols*rows - 9` is the board's stated configuration
invariant; it keeps `pool[i]` from raising `IndexError`. -/
theorem claim_C10_flagged_first_click (b : Board) (col row : Int)
    (sh : List (Int × Int) → List (Int × Int))
    (hreach : Reachable b)
    (hperm : ∀ l, (sh l).Perm l)
    (hmp : b.mines_placed = false)
    (hinb : b.is_inbounds col row = true)
    (hflag : (b.getState col row).is_flagged = true)
    (hmines : b.num_mines ≤ b.cols * b.rows - 9) :
    ∃ b1, b.reveal col row sh = some b1 ∧
      b1.mines_placed = true ∧
      b1.countMines = b.num_mines.toNat ∧
      b1.revealed_count = b.revealed_count ∧
      b1.game_over = b.game_over ∧ b1.win = b.win ∧
      b1.cells.length = b.cells.length ∧
      (∀ q ∈ b.cells.zip b1.cells,
        q.2.state.is_revealed = q.1.state.is_revealed ∧
        q.2.state.is_flagged = q.1.state.is_flagged) := by
  have hInv := hreach.inv
  obtain ⟨hall, hc0, hg0, hw0⟩ := hInv.unplaced hmp
  have hmf : ∀ x ∈ b.cells, x.state.is_mine = false := fun x hx => (hall x hx).1
  have hrev : (b.getState col row).is_revealed = false :=
    Board.getState_rev_false_of_all b (fun x hx => (hall x hx).2) col row
  have hpl := b.pool_length col row hinb
  have hal := b.all_positions_length
  have hfb : (b.forbidden col row).length ≤ 9 := by
    unfold Board.forbidden
    have := b.neighbors_length_le col row
    simp only [List.length_cons]
    omega
  obtain ⟨hcpos, hrpos⟩ := b.is_inbounds_pos col row hinb
  have hcast : b.cols * b.rows = ((b.rows.toNat * b.cols.toNat : Nat) : Int) := by
    push_cast
    rw [Int.toNat_of_nonneg (by omega : (0 : Int) ≤ b.rows),
      Int.toNat_of_nonneg (by omega : (0 : Int) ≤ b.cols)]
    ring
  have hn : b.num_mines.toNat ≤ (b.pool col row).length := by omega
  obtain ⟨b1, hpm⟩ := Board.place_mines_isSome b col row sh hperm hn
  obtain ⟨s1, s2, s3, s4, s5, s6, s7, s8⟩ := Board.place_mines_scalars b col row sh b1 hpm
  have hprojRF := Board.place_mines_projRF b col row sh b1 hpm
  have hflag1 : (b1.getState col row).is_flagged = true := by
    have hRF := hprojRF.getState s1 col row
    have := congrArg Prod.snd hRF
    simp only [stateRF] at this
    rw [this]
    exact hflag
  have hreveal := Board.reveal_unplaced_eq b col row sh hinb hg0 hrev hmp b1 hpm
  rw [Board.revealPlaced_flagged b1 col row hflag1] at hreveal
  refine ⟨b1, hreveal, s4, ?_, s5, s6, s7, s8, ?_⟩
  · exact Board.place_mines_countMines b col row sh b1 hperm hInv.len hmf hpm
  · intro q hq
    have := zip_rel_of_proj (fun c : Cell => stateRF c.state) (fun c : Cell => stateRF c.state)
      b.cells b1.cells hprojRF q hq
    exact ⟨congrArg Prod.fst this, congrArg Prod.snd this⟩

/-- Witness for C10: flag (1,1) on a fresh 4×4 board with one mine, then
click the flagged cell as the first reveal. -/
theorem claim_C10_flagged_first_click_witness :
    ((Board.init 4 4 1).toggle_flag 1 1).mines_placed = false ∧
    ((Board.init 4 4 1).toggle_flag 1 1).is_inbounds 1 1 = true ∧
    (((Board.init 4 4 1).toggle_flag 1 1).getState 1 1).is_flagged = true ∧
    ((Board.init 4 4 1).toggle_flag 1 1).num_mines
      ≤ ((Board.init 4 4 1).toggle_flag 1 1).cols * ((Board.init 4 4 1).toggle_flag 1 1).rows - 9 ∧
    (∃ b1, ((Board.init 4 4 1).toggle_flag 1 1).reveal 1 1 id = some b1 ∧
      b1.mines_placed = true ∧
      b1.countMines = ((Board.init 4 4 1).toggle_flag 1 1).num_mines.toNat ∧
      b1.revealed_count = ((Board.init 4 4 1).toggle_flag 1 1).revealed_count ∧
      b1.game_over = ((Board.init 4 4 1).toggle_flag 1 1).game_over ∧
      b1.win = ((Board.init 4 4 1).toggle_flag 1 1).win ∧
      b1.cells.length = ((Board.init 4 4 1).toggle_flag 1 1).cells.length ∧
      (∀ q ∈ ((Board.init 4 4 1).toggle_flag 1 1).cells.zip b1.cells,
        q.2.state.is_revealed = q.1.state.is_revealed ∧
        q.2.state.is_flagged = q.1.state.is_flagged)) :=
  ⟨by decide, by decide, by decide, by decide,
    claim_C10_flagged_first_click ((Board.init 4 4 1).toggle_flag 1 1) 1 1 id
      (Reachable.toggle _ 1 1 (Reachable.init 4 4 1))
      (fun l => List.Perm.refl l) (by decide) (by decide) (by decide) (by decide)⟩

/-! ## Claims C3, C4, C5, C8: reachable counterexample traces -/

/-- Trace board for C3: 4×1, one mine; first reveal at (0,0) with the
identity shuffle puts the mine at (2,0) and reveals (0,0),(1,0). -/
def c3Board1 : Board := ((Board.init 4 1 1).reveal 0 0 id).getD (Board.init 4 1 1)

/-- Trace board for C3 after clicking the mine at (2,0): the loss path
reveals the mine without incrementing `revealed_count`. -/
def c3Board2 : Board := (c3Board1.reveal 2 0 id).getD (Board.init 4 1 1)

/-- Claim C3 counterexample: after a loss, `revealed_count` (2) differs
from the number of cells with `is_revealed = true` (3): the loss path and
the mine sweep reveal cells without touching the counter. -/
theorem claim_C3_counterexample :
    Reachable c3Board2 ∧ c3Board2.revealed_count ≠ (c3Board2.countRevealed : Int) := by
  constructor
  · refine Reachable.reveal c3Board1 2 0 id c3Board2 ?_ (fun l => List.Perm.refl l) (by decide)
    exact Reachable.reveal (Board.init 4 1 1) 0 0 id c3Board1 (Reachable.init 4 1 1)
      (fun l => List.Perm.refl l) (by decide)
  · decide

/-- Claim C3 amended: after every operation, `revealed_count` equals the
number of revealed NON-MINE cells (the loss path and the win sweep reveal
cells without incrementing the counter, but only mines are ever revealed
uncounted). -/
theorem claim_C3_amended_count (b : Board) (h : Reachable b) :
    b.revealed_count = (b.countRevealedSafe : Int) :=
  (Reachable.inv h).count_eq

/-- Witness for the amended C3, at the very counterexample state: the
counter matches the revealed non-mine cells even after the loss. -/
theorem claim_C3_amended_count_witness :
    Reachable c3Board2 ∧ c3Board2.revealed_count = (c3Board2.countRevealedSafe : Int) := by
  have hr : Reachable c3Board2 := by
    refine Reachable.reveal c3Board1 2 0 id c3Board2 ?_ (fun l => List.Perm.refl l) (by decide)
    exact Reachable.reveal (Board.init 4 1 1) 0 0 id c3Board1 (Reachable.init 4 1 1)
      (fun l => List.Perm.refl l) (by decide)
  exact ⟨hr, claim_C3_amended_count c3Board2 hr⟩

/-- Trace boards for C4: 5×1 with two mines at (2,0),(3,0) after a first
click at (0,0); the player flags the mine at (2,0), then clicks the mine
at (3,0). -/
def c4Board1 : Board := ((Board.init 5 1 2).reveal 0 0 id).getD (Board.init 5 1 2)

/-- C4 trace: flag the mine at (2,0). -/
def c4Board2 : Board := c4Board1.toggle_flag 2 0

/-- C4 trace: lose by clicking the mine at (3,0); the loss sweep reveals
the flagged mine at (2,0) without clearing its flag. -/
def c4Board3 : Board := (c4Board2.reveal 3 0 id).getD (Board.init 5 1 2)

/-- Claim C4 counterexample: a reachable state holds a cell that is both
flagged and revealed — `_reveal_all_mines` reveals flagged mines and never
clears `is_flagged`. -/
theorem claim_C4_counterexample :
    Reachable c4Board3 ∧
    ∃ x ∈ c4Board3.cells, x.state.is_flagged = true ∧ x.state.is_revealed = true := by
  constructor
  · refine Reachable.reveal c4Board2 3 0 id c4Board3 ?_ (fun l => List.Perm.refl l) (by decide)
    refine Reachable.toggle c4Board1 2 0 ?_
    exact Reachable.reveal (Board.init 5 1 2) 0 0 id c4Board1 (Reachable.init 5 1 2)
      (fun l => List.Perm.refl l) (by decide)
  · decide

/-- Claim C4 amended: in every reachable state, a cell that is both
flagged and revealed is a mine (revealed on the loss path); no non-mine
cell is ever flagged and revealed at once. -/
theorem claim_C4_amended_flag_rev (b : Board) (h : Reachable b) :
    ∀ x ∈ b.cells, x.state.is_flagged = true → x.state.is_revealed = true →
      x.state.is_mine = true :=
  (Reachable.inv h).flag_rev

/-- Witness for the amended C4, at the counterexample state itself. -/
theorem claim_C4_amended_flag_rev_witness :
    Reachable c4Board3 ∧
    ∀ x ∈ c4Board3.cells, x.state.is_flagged = true → x.state.is_revealed = true →
      x.state.is_mine = true := by
  have hr : Reachable c4Board3 := by
    refine Reachable.reveal c4Board2 3 0 id c4Board3 ?_ (fun l => List.Perm.refl l) (by decide)
    refine Reachable.toggle c4Board1 2 0 ?_
    exact Reachable.reveal (Board.init 5 1 2) 0 0 id c4Board1 (Reachable.init 5 1 2)
      (fun l => List.Perm.refl l) (by decide)
  exact ⟨hr, claim_C4_amended_flag_rev c4Board3 hr⟩

/-- Trace boards for C5: 4×1 with one mine at (2,0). -/
def c5Board1 : Board := ((Board.init 4 1 1).reveal 0 0 id).getD (Board.init 4 1 1)

/-- C5 trace: reveal (3,0), reaching `revealed_count = 3 = 4*1 - 1`, which
sets `win = true` while `game_over` stays false. -/
def c5Board2 : Board := (c5Board1.reveal 3 0 id).getD (Board.init 4 1 1)

/-- C5 trace: `reveal` is not blocked after the win (`game_over` is still
false), so clicking the mine at (2,0) also sets `game_over = true`. -/
def c5Board3 : Board := (c5Board2.reveal 2 0 id).getD (Board.init 4 1 1)

/-- Claim C5 counterexample: a reachable state with `gameOver = true` and
`win = true` simultaneously — `reveal` only guards on `game_over`, so a
mine can still be revealed after a win. -/
theorem claim_C5_counterexample :
    Reachable c5Board3 ∧ c5Board3.game_over = true ∧ c5Board3.win = true := by
  refine ⟨?_, by decide, by decide⟩
  refine Reachable.reveal c5Board2 2 0 id c5Board3 ?_ (fun l => List.Perm.refl l) (by decide)
  refine Reachable.reveal c5Board1 3 0 id c5Board2 ?_ (fun l => List.Perm.refl l) (by decide)
  exact Reachable.reveal (Board.init 4 1 1) 0 0 id c5Board1 (Reachable.init 4 1 1)
    (fun l => List.Perm.refl l) (by decide)

/-- Claim C5 amended: the first half of the claim holds — in every
reachable state, `win = true` implies every non-mine cell is revealed.
The mutual-exclusion half is refuted by the counterexample. -/
theorem claim_C5_amended_win_rev (b : Board) (h : Reachable b) (hw : b.win = true) :
    ∀ x ∈ b.cells, x.state.is_mine = false → x.state.is_revealed = true :=
  (Reachable.inv h).win_rev hw

/-- Witness for the amended C5, at the winning state of the trace. -/
theorem claim_C5_amended_win_rev_witness :
    Reachable c5Board2 ∧ c5Board2.win = true ∧
    ∀ x ∈ c5Board2.cells, x.state.is_mine = false → x.state.is_revealed = true := by
  have hr : Reachable c5Board2 := by
    refine Reachable.reveal c5Board1 3 0 id c5Board2 ?_ (fun l => List.Perm.refl l) (by decide)
    exact Reachable.reveal (Board.init 4 1 1) 0 0 id c5Board1 (Reachable.init 4 1 1)
      (fun l => List.Perm.refl l) (by decide)
  exact ⟨hr, by decide, claim_C5_amended_win_rev c5Board2 hr (by decide)⟩

/-- Trace boards for C8: reach a lost game (4×1, mine at (2,0) clicked). -/
def c8Board1 : Board := ((Board.init 4 1 1).reveal 0 0 id).getD (Board.init 4 1 1)

/-- C8 trace: the lost game (`game_over = true`). -/
def c8Board2 : Board := (c8Board1.reveal 2 0 id).getD (Board.init 4 1 1)

/-- Claim C8 counterexample: acting on a finished game is NOT always a
no-op — `toggle_flag` has no `game_over`/`win` guard, so flagging (3,0)
after the loss changes the board state. -/
theorem claim_C8_counterexample :
    Reachable c8Board2 ∧ c8Board2.game_over = true ∧
    c8Board2.toggle_flag 3 0 ≠ c8Board2 := by
  refine ⟨?_, by decide, by decide⟩
  refine Reachable.reveal c8Board1 2 0 id c8Board2 ?_ (fun l => List.Perm.refl l) (by decide)
  exact Reachable.reveal (Board.init 4 1 1) 0 0 id c8Board1 (Reachable.init 4 1 1)
    (fun l => List.Perm.refl l) (by decide)

/-- Claim C8 amended: the silent no-op guarantee holds for out-of-bounds
calls (both mutators), for `reveal` once `gameOver` is true, and for
`reveal`/`toggleFlag` on an already-revealed cell.  It does NOT extend to
`toggleFlag` on a finished game, nor to `reveal` after a win alone — see
the counterexample. -/
theorem claim_C8_amended_noop (b : Board) (col row : Int)
    (sh : List (Int × Int) → List (Int × Int)) :
    (b.is_inbounds col row = false →
      b.reveal col row sh = some b ∧ b.toggle_flag col row = b) ∧
    (b.game_over = true → b.reveal col row sh = some b) ∧
    ((b.getState col row).is_revealed = true → b.reveal col row sh = some b) ∧
    ((b.getState col row).is_revealed = true → b.toggle_flag col row = b) := by
  refine ⟨?_, ?_, ?_, ?_⟩
  · intro hni
    constructor
    · unfold Board.reveal
      rw [if_pos (by rw [hni]; rfl)]
    · unfold Board.toggle_flag
      rw [if_pos (by rw [hni]; rfl)]
  · intro hgo
    unfold Board.reveal
    rw [if_pos (by rw [hgo]; simp)]
  · intro hrev
    unfold Board.reveal
    by_cases h1 : (!(b.is_inbounds col row) || b.game_over) = true
    · rw [if_pos h1]
    · rw [if_neg h1, if_pos hrev]
  · intro hrev
    unfold Board.toggle_flag
    by_cases h1 : (!(b.is_inbounds col row)) = true
    · rw [if_pos h1]
    · rw [if_neg h1, if_pos hrev]

/-- Witness for the amended C8: an out-of-bounds click on a fresh board is
a silent no-op for both mutators. -/
theorem claim_C8_amended_noop_witness :
    (Board.init 2 2 0).is_inbounds 5 0 = false ∧
    (Board.init 2 2 0).reveal 5 0 id = some (Board.init 2 2 0) ∧
    (Board.init 2 2 0).toggle_flag 5 0 = Board.init 2 2 0 :=
  ⟨by decide, ((claim_C8_amended_noop (Board.init 2 2 0) 5 0 id).1 (by decide)).1,
    ((claim_C8_amended_noop (Board.init 2 2 0) 5 0 id).1 (by decide)).2⟩
